import Mathlib

/-!
Verification of the chunking, merging, diff-optimization and message
post-processing logic of the gcommit / gauthor command-line tools.

Text is modelled as `List Char` (`Str`). Pure string manipulation from the
Python source (str.split, str.strip, str.join, the regular-expression
substitutions and searches) is embedded as executable functions below; the
external collaborators (the LLM client, json.loads, git subprocesses, the
text editor) are passed in as oracle parameters, so that every function of
the tools becomes a total function of its inputs and oracles.
-/

abbrev Str := List Char

/-- ASCII whitespace as recognized by Python str.strip and by the regex
class backslash-s on the ASCII range. -/
def isSpace (c : Char) : Bool :=
  c = ' ' || c = '\t' || c = '\n' || c = '\r' || c = '\x0b' || c = '\x0c'

/-- Python str.strip(): remove leading and trailing whitespace. -/
def strip (s : Str) : Str :=
  ((s.dropWhile isSpace).reverse.dropWhile isSpace).reverse

/-! ## Python str.split(sep) for a nonempty separator -/

/-- First occurrence of the separator `sep` in `s`: the text before the
occurrence and the text after it, or `none` when `sep` does not occur. -/
def findSep (sep : Str) : Str → Option (Str × Str)
  | [] => none
  | c :: rest =>
    if sep.isPrefixOf (c :: rest) then some ([], (c :: rest).drop sep.length)
    else
      match findSep sep rest with
      | some (pre, post) => some (c :: pre, post)
      | none => none

/-- Fuel-indexed worker for Python str.split(sep): peel off the piece before
the first separator occurrence and continue after it.  The fuel only serves
termination; `splitOnSep` supplies enough of it. -/
def splitGo (sep : Str) : Nat → Str → List Str
  | 0, s => [s]
  | fuel + 1, s =>
    match findSep sep s with
    | none => [s]
    | some (pre, post) => pre :: splitGo sep fuel post

/-- Python s.split(sep) for a nonempty separator (empty pieces are kept). -/
def splitOnSep (sep s : Str) : List Str := splitGo sep (s.length + 1) s

/-- Python sep.join(pieces). -/
def joinSep (sep : Str) : List Str → Str
  | [] => []
  | [p] => p
  | p :: q :: rest => p ++ sep ++ joinSep sep (q :: rest)

/-- The separator `"\n\n"` on which gauthor splits the commit log. -/
def nlnl : Str := ['\n', '\n']

/-- `p` ends with a newline character. -/
def endsNL (p : Str) : Prop := ∃ q, p = q ++ ['\n']

/-- Split on a single character, keeping empty pieces.  This models the line
structure seen by the MULTILINE regex searches of the tools: lines are the
segments between newline characters. -/
def splitOnChar (c : Char) : Str → List Str
  | [] => [[]]
  | x :: xs =>
    match splitOnChar c xs with
    | [] => [[]]
    | p :: ps => if x = c then [] :: p :: ps else (x :: p) :: ps

/-! ## Facts about findSep and splitOnSep -/

theorem isPrefixOf_eq_append {sep s : Str} (h : sep.isPrefixOf s) :
    s = sep ++ s.drop sep.length :=
  (List.prefix_iff_eq_append.mp (List.isPrefixOf_iff_prefix.mp h)).symm

theorem findSep_eq_append {sep : Str} :
    ∀ {s pre post : Str}, findSep sep s = some (pre, post) → s = pre ++ sep ++ post := by
  intro s
  induction s with
  | nil => intro pre post h; simp [findSep] at h
  | cons c rest ih =>
    intro pre post h
    rw [findSep] at h
    split at h
    · next hp =>
      simp only [Option.some.injEq, Prod.mk.injEq] at h
      obtain ⟨rfl, rfl⟩ := h
      simpa using isPrefixOf_eq_append hp
    · next hp =>
      split at h
      · next pre' post' hrec =>
        simp only [Option.some.injEq, Prod.mk.injEq] at h
        obtain ⟨rfl, rfl⟩ := h
        simpa using ih hrec
      · exact absurd h (by simp)

theorem findSep_min {sep : Str} :
    ∀ {s pre post : Str}, findSep sep s = some (pre, post) →
      ∀ l r, s = l ++ sep ++ r → pre.length ≤ l.length := by
  intro s
  induction s with
  | nil => intro pre post h; simp [findSep] at h
  | cons c rest ih =>
    intro pre post h l r hs
    rw [findSep] at h
    split at h
    · next hp =>
      simp only [Option.some.injEq, Prod.mk.injEq] at h
      obtain ⟨rfl, rfl⟩ := h
      simp
    · next hp =>
      split at h
      · next pre' post' hrec =>
        simp only [Option.some.injEq, Prod.mk.injEq] at h
        obtain ⟨rfl, rfl⟩ := h
        match l with
        | [] =>
          exfalso
          apply hp
          apply List.isPrefixOf_iff_prefix.mpr
          exact ⟨r, by simpa using hs.symm⟩
        | d :: l' =>
          simp only [List.cons_append, List.append_assoc] at hs
          have h2 : rest = l' ++ sep ++ r := by
            have := (List.cons.injEq ..).mp hs
            simpa [List.append_assoc] using this.2
          simpa using ih hrec l' r h2
      · exact absurd h (by simp)

theorem findSep_none {sep : Str} (hsep : sep ≠ []) :
    ∀ {s : Str}, findSep sep s = none → ∀ l r, s ≠ l ++ sep ++ r := by
  intro s
  induction s with
  | nil =>
    intro _ l r habs
    apply hsep
    have hlen := congrArg List.length habs
    simp only [List.length_nil, List.length_append] at hlen
    have : sep.length = 0 := by omega
    exact List.length_eq_zero.mp this
  | cons c rest ih =>
    intro h l r habs
    rw [findSep] at h
    split at h
    · exact absurd h (by simp)
    · next hp =>
      have hrec : findSep sep rest = none := by
        revert h; split
        · intro h; exact absurd h (by simp)
        · next hr => intro _; exact hr
      match l with
      | [] =>
        apply hp
        apply List.isPrefixOf_iff_prefix.mpr
        exact ⟨r, by simpa using habs.symm⟩
      | d :: l' =>
        simp only [List.cons_append, List.append_assoc] at habs
        have h2 : rest = l' ++ sep ++ r := by
          have := (List.cons.injEq ..).mp habs
          simpa [List.append_assoc] using this.2
        exact ih hrec l' r h2

theorem nlnl_ne : nlnl ≠ [] := by simp [nlnl]

theorem not_endsNL_tail {c : Char} {p : Str} (h : ¬ endsNL (c :: p)) : ¬ endsNL p := by
  rintro ⟨q, hq⟩
  exact h ⟨c :: q, by simp [hq]⟩

theorem not_infix_tail {l : Str} {c : Char} {p : Str} (h : ¬ l <:+: c :: p) : ¬ l <:+: p := by
  rintro ⟨a, b, hab⟩
  exact h ⟨c :: a, b, by simp [hab]⟩

theorem findSep_nlnl_no_nl : ∀ {s : Str}, '\n' ∉ s → findSep nlnl s = none := by
  intro s
  induction s with
  | nil => intro _; simp [findSep]
  | cons c rest ih =>
    intro h
    simp only [List.mem_cons, not_or] at h
    obtain ⟨hc, hrest⟩ := h
    have hpre : ¬ (List.isPrefixOf nlnl (c :: rest) = true) := by
      simp only [nlnl, List.isPrefixOf, Bool.and_eq_true, beq_iff_eq]
      rintro ⟨h1, -⟩
      exact hc h1
    rw [findSep, if_neg hpre, ih hrest]

theorem findSep_nlnl_join : ∀ {p : Str} (t : Str), ¬ nlnl <:+: p → ¬ endsNL p →
    findSep nlnl (p ++ '\n' :: '\n' :: t) = some (p, t) := by
  intro p
  induction p with
  | nil =>
    intro t _ _
    rw [List.nil_append, findSep, if_pos]
    · simp [nlnl]
    · simp [nlnl, List.isPrefixOf]
  | cons c p' ih =>
    intro t hinf hend
    rw [List.cons_append, findSep]
    by_cases hc : c = '\n'
    · subst hc
      match p' with
      | [] => exact absurd ⟨[], rfl⟩ hend
      | d :: p'' =>
        by_cases hd : d = '\n'
        · subst hd
          exact absurd ⟨[], p'', by simp [nlnl]⟩ hinf
        · have hpre : ¬ (List.isPrefixOf nlnl ('\n' :: ((d :: p'') ++ '\n' :: '\n' :: t)) = true) := by
            simp only [nlnl, List.cons_append, List.isPrefixOf, Bool.and_eq_true, beq_iff_eq]
            rintro ⟨-, h2, -⟩
            exact hd h2.symm
          rw [if_neg hpre, ih t (not_infix_tail hinf) (not_endsNL_tail hend)]
    · have hpre : ¬ (List.isPrefixOf nlnl (c :: (p' ++ '\n' :: '\n' :: t)) = true) := by
        simp only [nlnl, List.isPrefixOf, Bool.and_eq_true, beq_iff_eq]
        rintro ⟨h1, -⟩
        exact hc h1.symm
      rw [if_neg hpre, ih t (not_infix_tail hinf) (not_endsNL_tail hend)]

theorem splitGo_congr {sep : Str} (hsep : sep ≠ []) :
    ∀ f f' s, s.length < f → s.length < f' → splitGo sep f s = splitGo sep f' s := by
  intro f
  induction f with
  | zero => intro f' s hf _; exact absurd hf (by omega)
  | succ f ih =>
    intro f' s hf hf'
    match f' with
    | 0 => exact absurd hf' (by omega)
    | f' + 1 =>
      simp only [splitGo]
      cases hfind : findSep sep s with
      | none => rfl
      | some pp =>
        obtain ⟨pre, post⟩ := pp
        have hdec := findSep_eq_append hfind
        have hsl : 1 ≤ sep.length :=
          Nat.pos_of_ne_zero fun h0 => hsep (List.length_eq_zero.mp h0)
        have hlen : post.length < s.length := by
          have := congrArg List.length hdec
          simp only [List.length_append] at this
          omega
        simp only
        exact congrArg (pre :: ·) (ih f' post (by omega) (by omega))

theorem splitOnSep_unfold {sep : Str} (hsep : sep ≠ []) (s : Str) :
    splitOnSep sep s =
      match findSep sep s with
      | none => [s]
      | some (pre, post) => pre :: splitOnSep sep post := by
  unfold splitOnSep
  simp only [splitGo]
  cases hfind : findSep sep s with
  | none => rfl
  | some pp =>
    obtain ⟨pre, post⟩ := pp
    have hdec := findSep_eq_append hfind
    have hsl : 1 ≤ sep.length :=
      Nat.pos_of_ne_zero fun h0 => hsep (List.length_eq_zero.mp h0)
    have hlen : post.length < s.length := by
      have := congrArg List.length hdec
      simp only [List.length_append] at this
      omega
    simp only
    exact congrArg (pre :: ·) (splitGo_congr hsep s.length (post.length + 1) post hlen (by omega))

theorem splitGo_ne_nil {sep : Str} : ∀ f s, splitGo sep f s ≠ [] := by
  intro f s
  match f with
  | 0 => simp [splitGo]
  | f + 1 =>
    simp only [splitGo]
    cases hfind : findSep sep s with
    | none => simp
    | some pp => obtain ⟨pre, post⟩ := pp; simp

theorem splitOnSep_ne_nil {sep : Str} (s : Str) : splitOnSep sep s ≠ [] :=
  splitGo_ne_nil _ s

theorem splitOnSep_nlnl_spec : ∀ (n : Nat) (s : Str), s.length ≤ n →
    (∀ p ∈ splitOnSep nlnl s, ¬ nlnl <:+: p) ∧
    (∀ p ∈ (splitOnSep nlnl s).dropLast, ¬ endsNL p) := by
  intro n
  induction n with
  | zero =>
    intro s hs
    obtain rfl : s = [] := List.length_eq_zero.mp (Nat.le_zero.mp hs)
    rw [splitOnSep_unfold nlnl_ne]
    simp only [findSep]
    constructor
    · intro p hp
      obtain rfl : p = [] := by simpa using hp
      rintro ⟨a, b, hab⟩
      have := congrArg List.length hab
      simp [nlnl] at this
    · simp
  | succ n ih =>
    intro s hs
    rw [splitOnSep_unfold nlnl_ne]
    cases hfind : findSep nlnl s with
    | none =>
      constructor
      · intro p hp
        obtain rfl : p = s := by simpa using hp
        rintro ⟨a, b, hab⟩
        exact findSep_none nlnl_ne hfind a b hab.symm
      · simp
    | some pp =>
      obtain ⟨pre, post⟩ := pp
      have hdec := findSep_eq_append hfind
      have hlens := congrArg List.length hdec
      simp only [List.length_append, nlnl, List.length_cons, List.length_nil] at hlens
      have hpost : post.length ≤ n := by omega
      obtain ⟨ihA, ihB⟩ := ih post hpost
      constructor
      · intro p hp
        rcases List.mem_cons.mp hp with rfl | hp'
        · rintro ⟨a, b, hab⟩
          have hsplit : s = a ++ nlnl ++ (b ++ nlnl ++ post) := by
            rw [hdec, ← hab]
            simp [List.append_assoc]
          have hmin := findSep_min hfind a _ hsplit
          have hlen := congrArg List.length hab
          simp only [List.length_append, nlnl, List.length_cons, List.length_nil] at hlen
          omega
        · exact ihA p hp'
      · intro p hp
        obtain ⟨hd, tl, hsp⟩ := List.exists_cons_of_ne_nil (@splitOnSep_ne_nil nlnl post)
        have hp1 : p ∈ (pre :: splitOnSep nlnl post).dropLast := hp
        rw [hsp] at hp1
        have hp2 : p ∈ pre :: (hd :: tl).dropLast := hp1
        rcases List.mem_cons.mp hp2 with rfl | hp'
        · rintro ⟨q, hq⟩
          have hsplit : s = q ++ nlnl ++ ('\n' :: post) := by
            rw [hdec, hq]
            simp [nlnl, List.append_assoc]
          have hmin := findSep_min hfind q _ hsplit
          have hlen := congrArg List.length hq
          simp only [List.length_append, List.length_cons, List.length_nil] at hlen
          omega
        · have : p ∈ (splitOnSep nlnl post).dropLast := by rw [hsp]; exact hp'
          exact ihB p this

theorem splitOnSep_joinSep_nlnl : ∀ (g : List Str), g ≠ [] →
    (∀ p ∈ g, ¬ nlnl <:+: p) → (∀ p ∈ g.dropLast, ¬ endsNL p) →
    splitOnSep nlnl (joinSep nlnl g) = g := by
  intro g
  induction g with
  | nil => intro h; exact absurd rfl h
  | cons p g' ih =>
    intro _ hA hB
    match g' with
    | [] =>
      rw [joinSep, splitOnSep_unfold nlnl_ne]
      cases hfind : findSep nlnl p with
      | none => rfl
      | some pp =>
        obtain ⟨pre, post⟩ := pp
        exact absurd ⟨pre, post, (findSep_eq_append hfind).symm⟩ (hA p (by simp))
    | q :: g'' =>
      rw [joinSep]
      have harg : p ++ nlnl ++ joinSep nlnl (q :: g'') =
          p ++ '\n' :: '\n' :: joinSep nlnl (q :: g'') := by
        simp [nlnl, List.append_assoc]
      have hfind : findSep nlnl (p ++ nlnl ++ joinSep nlnl (q :: g'')) =
          some (p, joinSep nlnl (q :: g'')) := by
        rw [harg]
        exact findSep_nlnl_join _ (hA p (by simp)) (hB p (by simp [List.dropLast]))
      rw [splitOnSep_unfold nlnl_ne, hfind]
      have hB' : ∀ x ∈ (q :: g'').dropLast, ¬ endsNL x := by
        intro x hx
        exact hB x (by simp [List.dropLast, hx])
      have hA' : ∀ x ∈ q :: g'', ¬ nlnl <:+: x := fun x hx => hA x (by simp [hx])
      simp only
      exact congrArg (p :: ·) (ih (by simp) hA' hB')

/-! ## gauthor: chunk_commits (gauthor.py lines 13-15 and 49-79) -/

def MAX_COMMITS_PER_CHUNK : Nat := 50

def MAX_TOKENS_PER_CHUNK : Nat := 8000

/-- Total estimated token count of a list of commit entries, each counted as
length // 4 exactly as in the source loop. -/
def sumSizes (l : List Str) : Nat := (l.map (fun c => c.length / 4)).sum

/-- The packing loop of chunk_commits over the units obtained by splitting
the log on the blank-line separator.  Chunks are represented by their unit
groups; the source joins a group with the separator at the moment it is
appended to `chunks`, which `chunk_commits` below does with `joinSep`. -/
def ccGroups : List Str → List Str → Nat → List (List Str)
  | [], cur, _ => if cur.isEmpty then [] else [cur]
  | commit :: rest, cur, size =>
    let commitSize := commit.length / 4
    let emitted : List (List Str) :=
      if size + commitSize > MAX_TOKENS_PER_CHUNK then [cur] else []
    let cur1 : List Str :=
      if size + commitSize > MAX_TOKENS_PER_CHUNK then [commit] else cur ++ [commit]
    let size1 : Nat :=
      if size + commitSize > MAX_TOKENS_PER_CHUNK then commitSize else size + commitSize
    if MAX_COMMITS_PER_CHUNK ≤ cur1.length then
      emitted ++ [cur1] ++ ccGroups rest [] 0
    else
      emitted ++ ccGroups rest cur1 size1

/-- gauthor.chunk_commits: split the commit log on the blank-line separator
and pack the resulting units greedily into chunks. -/
def chunk_commits (commit_log : Str) : List Str :=
  if commit_log.isEmpty then []
  else (ccGroups (splitOnSep nlnl commit_log) [] 0).map (joinSep nlnl)

theorem sumSizes_nil : sumSizes [] = 0 := rfl

theorem sumSizes_singleton (c : Str) : sumSizes [c] = c.length / 4 := by
  simp [sumSizes]

theorem sumSizes_concat (l : List Str) (c : Str) :
    sumSizes (l ++ [c]) = sumSizes l + c.length / 4 := by
  simp [sumSizes]

theorem ccGroups_spec : ∀ (commits cur : List Str) (size : Nat),
    size = sumSizes cur → cur.length < MAX_COMMITS_PER_CHUNK →
    (sumSizes cur ≤ MAX_TOKENS_PER_CHUNK ∨ cur.length ≤ 1) →
    (∀ g ∈ ccGroups commits cur size,
        g.length ≤ MAX_COMMITS_PER_CHUNK ∧
        (sumSizes g ≤ MAX_TOKENS_PER_CHUNK ∨ g.length ≤ 1)) ∧
    (ccGroups commits cur size).flatten = cur ++ commits := by
  intro commits
  induction commits with
  | nil =>
    intro cur size hsz hlen hdisj
    rw [ccGroups]
    by_cases hc : cur.isEmpty
    · rw [if_pos hc]
      obtain rfl : cur = [] := by simpa using hc
      exact ⟨by simp, by simp⟩
    · rw [if_neg hc]
      refine ⟨?_, by simp⟩
      intro g hg
      obtain rfl : g = cur := by simpa using hg
      exact ⟨hlen.le, hdisj⟩
  | cons commit rest ih =>
    intro cur size hsz hlen hdisj
    simp only [ccGroups]
    by_cases hP : size + commit.length / 4 > MAX_TOKENS_PER_CHUNK
    · rw [if_pos hP, if_pos hP, if_pos hP]
      have hcnt : ¬ (MAX_COMMITS_PER_CHUNK ≤ ([commit] : List Str).length) := by
        simp [MAX_COMMITS_PER_CHUNK]
      rw [if_neg hcnt]
      have hrec := ih [commit] (commit.length / 4) (sumSizes_singleton commit).symm
        (by simp [MAX_COMMITS_PER_CHUNK]) (Or.inr (by simp))
      constructor
      · intro g hg
        rcases List.mem_cons.mp hg with rfl | hg'
        · exact ⟨hlen.le, hdisj⟩
        · exact hrec.1 g hg'
      · simp [List.flatten_append, List.flatten_cons, hrec.2]
    · rw [if_neg hP, if_neg hP, if_neg hP]
      have hsz1 : size + commit.length / 4 = sumSizes (cur ++ [commit]) := by
        rw [sumSizes_concat, hsz]
      have hbound : sumSizes (cur ++ [commit]) ≤ MAX_TOKENS_PER_CHUNK := by
        rw [← hsz1]; omega
      by_cases hcnt : MAX_COMMITS_PER_CHUNK ≤ (cur ++ [commit]).length
      · rw [if_pos hcnt]
        have hrec := ih [] 0 rfl (by simp [MAX_COMMITS_PER_CHUNK]) (Or.inl (by simp [sumSizes]))
        constructor
        · intro g hg
          rcases List.mem_cons.mp hg with rfl | hg'
          · refine ⟨?_, Or.inl hbound⟩
            simp only [List.length_append, List.length_singleton]
            omega
          · exact hrec.1 g hg'
        · simp [List.flatten_append, List.flatten_cons, hrec.2]
      · rw [if_neg hcnt]
        have hrec := ih (cur ++ [commit]) (size + commit.length / 4) hsz1
          (by simpa using hcnt) (Or.inl hbound)
        refine ⟨hrec.1, ?_⟩
        simp [hrec.2]

theorem ccGroups_ne_nil : ∀ (commits cur : List Str) (size : Nat),
    size = sumSizes cur →
    (∀ c ∈ commits, c.length / 4 ≤ MAX_TOKENS_PER_CHUNK) →
    ∀ g ∈ ccGroups commits cur size, g ≠ [] := by
  intro commits
  induction commits with
  | nil =>
    intro cur size _ _ g hg
    rw [ccGroups] at hg
    by_cases hc : cur.isEmpty
    · rw [if_pos hc] at hg; simp at hg
    · rw [if_neg hc] at hg
      obtain rfl : g = cur := by simpa using hg
      simpa using hc
  | cons commit rest ih =>
    intro cur size hsz hsmall g hg
    simp only [ccGroups] at hg
    by_cases hP : size + commit.length / 4 > MAX_TOKENS_PER_CHUNK
    · rw [if_pos hP, if_pos hP, if_pos hP] at hg
      have hcnt : ¬ (MAX_COMMITS_PER_CHUNK ≤ ([commit] : List Str).length) := by
        simp [MAX_COMMITS_PER_CHUNK]
      rw [if_neg hcnt] at hg
      have hcur : cur ≠ [] := by
        rintro rfl
        rw [hsz] at hP
        have := hsmall commit (by simp)
        simp [sumSizes] at hP
        omega
      rcases List.mem_cons.mp hg with rfl | hg'
      · exact hcur
      · exact ih [commit] (commit.length / 4) (sumSizes_singleton commit).symm
          (fun c hc => hsmall c (by simp [hc])) g hg'
    · rw [if_neg hP, if_neg hP, if_neg hP] at hg
      have hsz1 : size + commit.length / 4 = sumSizes (cur ++ [commit]) := by
        rw [sumSizes_concat, hsz]
      by_cases hcnt : MAX_COMMITS_PER_CHUNK ≤ (cur ++ [commit]).length
      · rw [if_pos hcnt] at hg
        rcases List.mem_cons.mp hg with rfl | hg'
        · simp
        · exact ih [] 0 rfl (fun c hc => hsmall c (by simp [hc])) g hg'
      · rw [if_neg hcnt] at hg
        rw [List.nil_append] at hg
        exact ih (cur ++ [commit]) (size + commit.length / 4) hsz1
          (fun c hc => hsmall c (by simp [hc])) g hg

theorem ccGroups_init_spec (log : Str) :
    (∀ g ∈ ccGroups (splitOnSep nlnl log) [] 0,
        g.length ≤ MAX_COMMITS_PER_CHUNK ∧
        (sumSizes g ≤ MAX_TOKENS_PER_CHUNK ∨ g.length ≤ 1)) ∧
    (ccGroups (splitOnSep nlnl log) [] 0).flatten = splitOnSep nlnl log := by
  have h := ccGroups_spec (splitOnSep nlnl log) [] 0 rfl
    (by simp [MAX_COMMITS_PER_CHUNK]) (Or.inl (by simp [sumSizes, MAX_TOKENS_PER_CHUNK]))
  exact ⟨h.1, by simpa using h.2⟩

theorem ccGroups_piece_structure (log : Str) :
    ∀ g ∈ ccGroups (splitOnSep nlnl log) [] 0,
      (∀ p ∈ g, ¬ nlnl <:+: p) ∧ (∀ p ∈ g.dropLast, ¬ endsNL p) := by
  intro g hg
  have hflat := (ccGroups_init_spec log).2
  obtain ⟨L1, L2, hL⟩ := List.append_of_mem hg
  have hpieces : splitOnSep nlnl log = L1.flatten ++ (g ++ L2.flatten) := by
    rw [← hflat, hL, List.flatten_append, List.flatten_cons]
  obtain ⟨hS1, hS2⟩ := splitOnSep_nlnl_spec log.length log le_rfl
  refine ⟨fun p hp => hS1 p ?_, fun p hp => hS2 p ?_⟩
  · rw [hpieces]
    simp [hp]
  · rw [hpieces]
    have hgne : g ≠ [] := by
      rintro rfl
      simp at hp
    by_cases hB : L2.flatten = []
    · rw [hB, List.append_nil, List.dropLast_append,
        if_neg (by simpa [List.isEmpty_iff] using hgne)]
      exact List.mem_append_right _ hp
    · have h1 : (L1.flatten ++ (g ++ L2.flatten)).dropLast
          = L1.flatten ++ (g ++ L2.flatten).dropLast := by
        rw [List.dropLast_append, if_neg (by simp [List.isEmpty_iff, hB])]
      have h2 : (g ++ L2.flatten).dropLast = g ++ L2.flatten.dropLast := by
        rw [List.dropLast_append, if_neg (by simpa [List.isEmpty_iff] using hB)]
      rw [h1, h2]
      exact List.mem_append_right _ (List.mem_append_left _ (List.dropLast_subset g hp))

theorem splitOnSep_nlnl_nil : splitOnSep nlnl [] = [[]] := by
  rw [splitOnSep_unfold nlnl_ne]
  simp [findSep]

theorem chunk_commits_unit_count (log : Str) :
    ∀ c ∈ chunk_commits log, (splitOnSep nlnl c).length ≤ MAX_COMMITS_PER_CHUNK := by
  intro c hc
  rw [chunk_commits] at hc
  by_cases hlog : log.isEmpty
  · rw [if_pos hlog] at hc
    simp at hc
  · rw [if_neg hlog] at hc
    obtain ⟨g, hg, rfl⟩ := List.mem_map.mp hc
    have hglen := ((ccGroups_init_spec log).1 g hg).1
    rcases eq_or_ne g [] with rfl | hgne
    · rw [joinSep, splitOnSep_nlnl_nil]
      simp [MAX_COMMITS_PER_CHUNK]
    · obtain ⟨hA, hB⟩ := ccGroups_piece_structure log g hg
      rw [splitOnSep_joinSep_nlnl g hgne hA hB]
      exact hglen

theorem chunk_commits_lossless (log : Str)
    (hne : ¬ log.isEmpty)
    (hsmall : ∀ u ∈ splitOnSep nlnl log, u.length / 4 ≤ MAX_TOKENS_PER_CHUNK) :
    ((chunk_commits log).map (splitOnSep nlnl)).flatten = splitOnSep nlnl log := by
  rw [chunk_commits, if_neg hne, List.map_map]
  have hmap : (ccGroups (splitOnSep nlnl log) [] 0).map (splitOnSep nlnl ∘ joinSep nlnl)
      = (ccGroups (splitOnSep nlnl log) [] 0).map id := by
    apply List.map_congr_left
    intro g hg
    have hgne := ccGroups_ne_nil (splitOnSep nlnl log) [] 0 rfl hsmall g hg
    obtain ⟨hA, hB⟩ := ccGroups_piece_structure log g hg
    simpa using splitOnSep_joinSep_nlnl g hgne hA hB
  rw [hmap, List.map_id]
  exact (ccGroups_init_spec log).2

theorem chunk_commits_size_spec (log : Str) :
    ∀ c ∈ chunk_commits log,
      (MAX_TOKENS_PER_CHUNK < sumSizes (splitOnSep nlnl c) →
        (splitOnSep nlnl c).length = 1 ∧
        ∀ u ∈ splitOnSep nlnl c, MAX_TOKENS_PER_CHUNK < u.length / 4) ∧
      (2 ≤ (splitOnSep nlnl c).length → sumSizes (splitOnSep nlnl c) ≤ MAX_TOKENS_PER_CHUNK) := by
  intro c hc
  rw [chunk_commits] at hc
  by_cases hlog : log.isEmpty
  · rw [if_pos hlog] at hc
    simp at hc
  · rw [if_neg hlog] at hc
    obtain ⟨g, hg, rfl⟩ := List.mem_map.mp hc
    have hgspec := (ccGroups_init_spec log).1 g hg
    rcases eq_or_ne g [] with rfl | hgne
    · rw [joinSep, splitOnSep_nlnl_nil]
      constructor
      · intro habs
        simp [sumSizes, MAX_TOKENS_PER_CHUNK] at habs
      · intro habs
        simp at habs
    · obtain ⟨hA, hB⟩ := ccGroups_piece_structure log g hg
      rw [splitOnSep_joinSep_nlnl g hgne hA hB]
      constructor
      · intro hbig
        rcases hgspec.2 with hsz | hone
        · omega
        · have hlen1 : g.length = 1 := by
            have : 1 ≤ g.length := List.length_pos.mpr hgne
            omega
          refine ⟨hlen1, ?_⟩
          intro u hu
          obtain ⟨x, hx⟩ := List.length_eq_one.mp hlen1
          rw [hx] at hu
          obtain rfl : u = x := by simpa using hu
          rw [hx] at hbig
          rw [sumSizes_singleton] at hbig
          exact hbig
      · intro htwo
        rcases hgspec.2 with hsz | hone
        · exact hsz
        · omega

/-! ## gcommit: splitting a diff into per-file sections (gcommit.py 56-84) -/

/-- The literal matched by the MULTILINE-anchored pattern on which both
optimize_diff and chunk_diff split a diff. -/
def dgSep : Str := "diff --git".toList

/-- Scan for the first occurrence of `sep` that is anchored at the start of
a line (position 0 or just after a newline), as the MULTILINE regex split
does.  `atStart` records whether the current position begins a line. -/
def findAnchored (sep : Str) : Bool → Str → Option (Str × Str)
  | _, [] => none
  | atStart, c :: rest =>
    if atStart && sep.isPrefixOf (c :: rest) then some ([], (c :: rest).drop sep.length)
    else
      match findAnchored sep (c = '\n') rest with
      | some (pre, post) => some (c :: pre, post)
      | none => none

/-- Fuel-indexed worker for re.split on a line-anchored literal.  After a
match the scan resumes right after the matched text; the separator used here
does not end with a newline, so the resumed position is not a line start. -/
def splitAnchGo (sep : Str) : Nat → Bool → Str → List Str
  | 0, _, s => [s]
  | fuel + 1, atStart, s =>
    match findAnchored sep atStart s with
    | none => [s]
    | some (pre, post) => pre :: splitAnchGo sep fuel false post

/-- re.split of a diff on the line-anchored literal separator. -/
def splitDiffGit (s : Str) : List Str := splitAnchGo dgSep (s.length + 1) true s

/-- Total character count of a group of sections. -/
def sumLen (l : List Str) : Nat := (l.map List.length).sum

/-- The packing loop of chunk_diff over per-file sections.  Chunks are unit
groups; the source appends the concatenation of current_chunk, done by
`List.flatten` in `chunk_diff` below.  Whitespace-only sections are
skipped. -/
def cdGroups (maxChunkSize : Nat) : List Str → List Str → Nat → List (List Str)
  | [], cur, _ => if cur.isEmpty then [] else [cur]
  | fd :: rest, cur, size =>
    if (strip fd).isEmpty then cdGroups maxChunkSize rest cur size
    else if size + fd.length > maxChunkSize ∧ cur ≠ [] then
      cur :: cdGroups maxChunkSize rest [fd] fd.length
    else
      cdGroups maxChunkSize rest (cur ++ [fd]) (size + fd.length)

/-- gcommit.chunk_diff with its default max_chunk_size of 4000. -/
def chunk_diff (diff : Str) (max_chunk_size : Nat := 4000) : List Str :=
  if diff.isEmpty then []
  else (cdGroups max_chunk_size (splitDiffGit diff) [] 0).map List.flatten

theorem sumLen_nil : sumLen [] = 0 := rfl

theorem sumLen_singleton (u : Str) : sumLen [u] = u.length := by simp [sumLen]

theorem sumLen_concat (l : List Str) (u : Str) :
    sumLen (l ++ [u]) = sumLen l + u.length := by simp [sumLen]

theorem length_flatten_eq_sumLen (g : List Str) : g.flatten.length = sumLen g := by
  induction g with
  | nil => rfl
  | cons u g ih => simp [sumLen, List.flatten_cons, ih]

theorem cdGroups_spec (maxChunkSize : Nat) :
    ∀ (pieces cur : List Str) (size : Nat),
    size = sumLen cur →
    (sumLen cur ≤ maxChunkSize ∨ cur.length ≤ 1) →
    (∀ u ∈ cur, ¬ (strip u).isEmpty = true) →
    (∀ g ∈ cdGroups maxChunkSize pieces cur size,
        g ≠ [] ∧ (∀ u ∈ g, ¬ (strip u).isEmpty = true) ∧
        (sumLen g ≤ maxChunkSize ∨ g.length ≤ 1)) ∧
    (cdGroups maxChunkSize pieces cur size).flatten =
      cur ++ pieces.filter (fun fd => !(strip fd).isEmpty) := by
  intro pieces
  induction pieces with
  | nil =>
    intro cur size hsz hdisj hblank
    rw [cdGroups]
    by_cases hc : cur.isEmpty
    · rw [if_pos hc]
      obtain rfl : cur = [] := List.isEmpty_iff.mp hc
      exact ⟨by simp, by simp⟩
    · rw [if_neg hc]
      refine ⟨?_, by simp⟩
      intro g hg
      obtain rfl : g = cur := by simpa using hg
      exact ⟨fun h => hc (by simp [h, List.isEmpty_iff]), hblank, hdisj⟩
  | cons fd rest ih =>
    intro cur size hsz hdisj hblank
    rw [cdGroups]
    by_cases hb : (strip fd).isEmpty
    · rw [if_pos hb]
      have hrec := ih cur size hsz hdisj hblank
      refine ⟨hrec.1, ?_⟩
      rw [hrec.2, List.filter_cons_of_neg (by simp [hb])]
    · rw [if_neg hb]
      have hblank1 : ∀ u ∈ cur ++ [fd], ¬ (strip u).isEmpty = true := by
        intro u hu
        rcases List.mem_append.mp hu with hu' | hu'
        · exact hblank u hu'
        · obtain rfl : u = fd := by simpa using hu'
          exact hb
      by_cases hP : size + fd.length > maxChunkSize ∧ cur ≠ []
      · rw [if_pos hP]
        have hrec := ih [fd] fd.length (sumLen_singleton fd).symm (Or.inr (by simp))
          (by simpa using hb)
        constructor
        · intro g hg
          rcases List.mem_cons.mp hg with rfl | hg'
          · exact ⟨hP.2, hblank, hdisj⟩
          · exact hrec.1 g hg'
        · rw [List.flatten_cons, hrec.2, List.filter_cons_of_pos (by simp [hb])]
          simp
      · rw [if_neg hP]
        have hdisj1 : sumLen (cur ++ [fd]) ≤ maxChunkSize ∨ (cur ++ [fd]).length ≤ 1 := by
          rcases eq_or_ne cur [] with rfl | hcur
          · exact Or.inr (by simp)
          · left
            rw [sumLen_concat, ← hsz]
            rcases not_and_or.mp hP with hsz' | hcur'
            · omega
            · exact absurd hcur hcur'
        have hrec := ih (cur ++ [fd]) (size + fd.length)
          (by rw [sumLen_concat, hsz]) hdisj1 hblank1
        refine ⟨hrec.1, ?_⟩
        rw [hrec.2, List.filter_cons_of_pos (by simp [hb])]
        simp

/-! ## gcommit: optimize_diff (gcommit.py 19-53) -/

/-- First line of `fd` matching the anchored rename-from pattern, returning
the captured path (the nonempty rest of the line). -/
def renameFromPath (fd : Str) : Option Str :=
  (splitOnChar '\n' fd).findSome? fun l =>
    if ("rename from ".toList).isPrefixOf l ∧ 12 < l.length then some (l.drop 12) else none

/-- First line of `fd` matching the anchored rename-to pattern. -/
def renameToPath (fd : Str) : Option Str :=
  (splitOnChar '\n' fd).findSome? fun l =>
    if ("rename to ".toList).isPrefixOf l ∧ 10 < l.length then some (l.drop 10) else none

/-- Split at the last occurrence of the " and " literal that leaves a
nonempty right part, as the greedy backtracking of the first capture group
of the binary-files pattern does. -/
def lastAndSplit : Str → Option (Str × Str)
  | [] => none
  | c :: rest =>
    match lastAndSplit rest with
    | some (a, b) => some (c :: a, b)
    | none =>
      if (" and ".toList).isPrefixOf (c :: rest) ∧ 5 < (c :: rest).length then
        some ([], (c :: rest).drop 5)
      else none

/-- Match one line against the anchored binary-files pattern with the
backtracking choices of a greedy regex engine: the differ literal is
anchored at the line end and the first group extends to the last " and "
that still leaves a nonempty second group; both groups are nonempty. -/
def binaryLineGroups (l : Str) : Option (Str × Str) :=
  if ("Binary files ".toList).isPrefixOf l then
    let rest := l.drop 13
    if (" differ".toList).isSuffixOf rest then
      match lastAndSplit (rest.take (rest.length - 7)) with
      | some (a, b) => if a.isEmpty then none else some (a, b)
      | none => none
    else none
  else none

/-- First line of `fd` matching the binary-files pattern, with its groups. -/
def binarySearch (fd : Str) : Option (Str × Str) :=
  (splitOnChar '\n' fd).findSome? binaryLineGroups

def renameMarker (a b : Str) : Str :=
  "# file renamed from ".toList ++ a ++ " to ".toList ++ b ++ ['\n']

def binaryMarker (x y : Str) : Str :=
  "# binary file changed: ".toList ++ x ++ " -> ".toList ++ y ++ ['\n']

/-- The per-section loop of optimize_diff: skip whitespace-only sections,
collapse sections with both rename lines to a rename marker, collapse
sections with a binary-files line to a binary marker, keep the rest. -/
def optimizeDiffLoop : List Str → List Str
  | [] => []
  | fd :: rest =>
    if (strip fd).isEmpty then optimizeDiffLoop rest
    else
      match renameFromPath fd, renameToPath fd with
      | some a, some b => renameMarker a b :: optimizeDiffLoop rest
      | _, _ =>
        match binarySearch fd with
        | some (x, y) => binaryMarker x y :: optimizeDiffLoop rest
        | none => fd :: optimizeDiffLoop rest

/-- gcommit.optimize_diff. -/
def optimize_diff (diff : Str) : Str :=
  if diff.isEmpty then []
  else (optimizeDiffLoop (splitDiffGit diff)).flatten

/-- The per-section transformation that optimize_diff applies, as a single
function: `none` drops the section, `some` gives its replacement. -/
def sectionTransform (fd : Str) : Option Str :=
  if (strip fd).isEmpty then none
  else
    match renameFromPath fd, renameToPath fd with
    | some a, some b => some (renameMarker a b)
    | _, _ =>
      match binarySearch fd with
      | some (x, y) => some (binaryMarker x y)
      | none => some fd

/-! ## gcommit: process_diff and the LLM call wrappers (gcommit.py 87-157) -/

/-- Python truthiness filter for an optional string result. -/
def truthyOpt : Option Str → Option Str
  | none => none
  | some s => if s.isEmpty then none else some s

/-- gcommit.process_diff.  The summarize_diff_chunk calls are modelled by
`sumOracle`, whose `none` result is the caught-exception path; a chunk whose
summary is falsy is skipped. -/
def process_diff (sumOracle : Str → Option Str) (diff : Str) : Option Str :=
  if diff.isEmpty then none
  else
    let optimized := optimize_diff diff
    if 4000 < optimized.length then
      some (joinSep nlnl ((chunk_diff optimized).filterMap fun c => truthyOpt (sumOracle c)))
    else some optimized

/-- Number of LLM calls made by process_diff: one summarize call per chunk
when the optimized diff exceeds the size bound, none otherwise. -/
def processDiffCalls (diff : Str) : Nat :=
  if diff.isEmpty then 0
  else if 4000 < (optimize_diff diff).length then (chunk_diff (optimize_diff diff)).length
  else 0

/-! ## gauthor: analyze_commit_chunk and merge_analyses (gauthor.py 82-185) -/

/-- The structured analysis parsed from an LLM response: a field is `none`
when the corresponding key is absent (or, for the list-valued categories,
not a list). -/
structure Analysis where
  summary : Option Str
  features : Option (List Str)
  technologies : Option (List Str)
  code_quality : Option Str
  technical_skills : Option (List Str)
  notable_achievements : Option (List Str)
deriving DecidableEq

/-- Python str.find for a single character: index or -1. -/
def pyFind (c : Char) (s : Str) : Int :=
  match s.findIdx? (· = c) with
  | some i => (i : Int)
  | none => -1

/-- Python str.rfind for a single character: last index or -1. -/
def pyRFind (c : Char) (s : Str) : Int :=
  match s.reverse.findIdx? (· = c) with
  | some i => ((s.length - 1 - i : Nat) : Int)
  | none => -1

/-- Python index clamping for slices. -/
def pyIndex (len : Nat) (i : Int) : Nat :=
  if i < 0 then ((len : Int) + i).toNat else min i.toNat len

/-- Python s[a:b]. -/
def pySlice (s : Str) (a b : Int) : Str :=
  (s.take (pyIndex s.length b)).drop (pyIndex s.length a)

/-- The span between the first opening brace and the last closing brace of
the response, exactly as analyze_commit_chunk slices it. -/
def extractJson (response : Str) : Str :=
  pySlice response (pyFind '{' response) (pyRFind '}' response + 1)

/-- The fixed fallback mapping returned by analyze_commit_chunk on error. -/
def fallbackAnalysis : Analysis where
  summary := some "Unable to analyze contributions due to an error.".toList
  features := some []
  technologies := some []
  code_quality := some "No code quality analysis available.".toList
  technical_skills := some []
  notable_achievements := some []

/-- gauthor.analyze_commit_chunk: one LLM call per chunk (`resp` is the
outcome, `.error` being any raised exception), then json.loads (`parseJson`,
`none` being a parse failure) applied to the brace-delimited span.  Any
failure yields the fixed fallback mapping. -/
def analyze_commit_chunk (parseJson : Str → Option Analysis)
    (resp : Except Unit Str) : Analysis :=
  match resp with
  | .error _ => fallbackAnalysis
  | .ok r =>
    match parseJson (extractJson r) with
    | some a => a
    | none => fallbackAnalysis

/-- The per-chunk analysis loop of gauthor.main. -/
def batchAnalyses (parseJson : Str → Option Analysis) (oracle : Str → Except Unit Str)
    (chunks : List Str) : List Analysis :=
  chunks.map fun c => analyze_commit_chunk parseJson (oracle c)

/-- The merged result of gauthor.merge_analyses: every key present. -/
structure MergedAnalysis where
  summary : Str
  features : List Str
  technologies : List Str
  code_quality : Str
  technical_skills : List Str
  notable_achievements : List Str
deriving DecidableEq

/-- The worker behind list(dict.fromkeys(l)): keep the first occurrence of
each element, skipping anything already seen. -/
def fromKeys : List Str → List Str → List Str
  | [], _ => []
  | x :: xs, seen => if x ∈ seen then fromKeys xs seen else x :: fromKeys xs (x :: seen)

/-- list(dict.fromkeys(l)): remove duplicates preserving first-seen order. -/
def dedupFirst (l : List Str) : List Str := fromKeys l []

/-- The list stored under a category key, or [] when the key is absent or
its value is not a list. -/
def getListD (o : Option (List Str)) : List Str := o.getD []

/-- gauthor.merge_analyses. -/
def merge_analyses (analyses : List Analysis) : MergedAnalysis :=
  if analyses.isEmpty then
    { summary := "No contributions found.".toList
      features := []
      technologies := []
      code_quality := "No code quality analysis available.".toList
      technical_skills := []
      notable_achievements := [] }
  else
    { summary := joinSep [' '] (analyses.filterMap fun a => truthyOpt a.summary)
      features := dedupFirst ((analyses.map fun a => getListD a.features).flatten)
      technologies := dedupFirst ((analyses.map fun a => getListD a.technologies).flatten)
      code_quality := joinSep [' '] (analyses.filterMap fun a => truthyOpt a.code_quality)
      technical_skills := dedupFirst ((analyses.map fun a => getListD a.technical_skills).flatten)
      notable_achievements :=
        dedupFirst ((analyses.map fun a => getListD a.notable_achievements).flatten) }

/-! ## gcommit: generate_commit_message post-processing (gcommit.py 160-217) -/

/-- After an opening parenthesis: consume characters up to the first closing
parenthesis, which must be followed directly by a colon; returns the rest
after the colon. -/
def scopeTail : Str → Option Str
  | [] => none
  | d :: r => if d = ':' then some r else none

def scopeBody : Str → Option Str
  | [] => none
  | c :: rest => if c = ')' then scopeTail rest else scopeBody rest

/-- Match the parenthesized-scope pattern (an opening parenthesis, any
characters other than a closing parenthesis, a closing parenthesis, a
colon) at the head of `s`; returns the rest after the match. -/
def matchScope : Str → Option Str
  | [] => none
  | c :: rest => if c = '(' then scopeBody rest else none

/-- Fuel-indexed worker for the scope-collapsing re.sub: scan left to right,
replace each leftmost match with a colon and resume after it. -/
def collapseGo : Nat → Str → Str
  | 0, s => s
  | _ + 1, [] => []
  | fuel + 1, c :: rest =>
    match matchScope (c :: rest) with
    | some r => ':' :: collapseGo fuel r
    | none => c :: collapseGo fuel rest

/-- re.sub replacing every parenthesized scope before a colon with a bare
colon. -/
def collapseScopes (s : Str) : Str := collapseGo (s.length + 1) s

/-- Worker for the whitespace-collapsing re.sub: every maximal run of
whitespace becomes a single space. -/
def wsNormGo : Str → Bool → Str
  | [], _ => []
  | c :: rest, prevSpace =>
    if isSpace c then
      (if prevSpace then [] else [' ']) ++ wsNormGo rest true
    else c :: wsNormGo rest false

/-- re.sub replacing each whitespace run with one space. -/
def wsNormalize (s : Str) : Str := wsNormGo s false

/-- The post-processing that generate_commit_message applies to a successful
LLM response: strip, collapse parenthesized scopes, normalize whitespace and
strip, then truncate at the first period and strip. -/
def postprocessMessage (resp : Str) : Str :=
  let m3 := strip (wsNormalize (collapseScopes (strip resp)))
  if '.' ∈ m3 then strip (m3.takeWhile (· ≠ '.')) else m3

/-- gcommit.generate_commit_message: one LLM call (`genOracle`, `none` being
the caught-exception path), then the post-processing above. -/
def generate_commit_message (genOracle : Str → Option Str) (diff : Str) : Option Str :=
  if diff.isEmpty then none
  else
    match genOracle diff with
    | none => none
    | some content => some (postprocessMessage content)

/-! ## The two entry points (gcommit.py 265-300, gauthor.py 277-308) -/

/-- The observable outcome of one tool run: the report / diagnostic lines it
prints (progress lines are not tracked), the number of LLM calls it makes,
and the message it commits, if any. -/
structure ToolRun where
  printed : List Str
  llmCalls : Nat
  committed : Option Str
deriving DecidableEq

def bulleted (items : List Str) : List Str :=
  items.map fun i => "   • ".toList ++ i

/-- gauthor.format_summary. -/
def format_summary (s : MergedAnalysis) (author_email : Str) : Str :=
  let base := ["\n📊 Detailed Contribution Analysis for ".toList ++ author_email,
               List.replicate (author_email.length + 35) '=',
               "\n📝 Summary:".toList,
               "   ".toList ++ s.summary]
  let r1 := if s.features.isEmpty then []
            else "\n✨ Implemented Features:".toList :: bulleted s.features
  let r2 := if s.technologies.isEmpty then []
            else "\n🔧 Technologies & Libraries:".toList :: bulleted s.technologies
  let r3 := if s.code_quality.isEmpty then []
            else ["\n📈 Code Quality & Architecture:".toList, "   ".toList ++ s.code_quality]
  let r4 := if s.technical_skills.isEmpty then []
            else "\n💻 Technical Skills Demonstrated:".toList :: bulleted s.technical_skills
  let r5 := if s.notable_achievements.isEmpty then []
            else "\n🏆 Notable Achievements:".toList :: bulleted s.notable_achievements
  joinSep ['\n'] (base ++ r1 ++ r2 ++ r3 ++ r4 ++ r5)

/-- gcommit.main without the last-ten mode: read the staged diff (`gitOut`
is what the git subprocess wrote to stdout), process it, and either report
that there is nothing to commit or generate a message, optionally let the
user edit it, and commit. -/
def gcommitMain (gitOut : Str) (sumOracle : Str → Option Str)
    (genOracle : Str → Option Str) (edit : Bool) (editOracle : Str → Str) : ToolRun :=
  let diff := process_diff sumOracle (strip gitOut)
  let calls0 := processDiffCalls (strip gitOut)
  match diff with
  | none => ⟨["No staged changes. Use \x27git add\x27 before running gcommit.".toList], calls0, none⟩
  | some d =>
    if d.isEmpty then
      ⟨["No staged changes. Use \x27git add\x27 before running gcommit.".toList], calls0, none⟩
    else
      match generate_commit_message genOracle d with
      | none => ⟨["Failed to generate commit message.".toList], calls0 + 1, none⟩
      | some m =>
        let mFinal := if edit then editOracle m else m
        ⟨["Committed with message: ".toList ++ mFinal], calls0 + 1, some mFinal⟩

/-- gauthor.main: read the author log (`commitLog` is the get_author_commits
result, `none` being a failed git call), and either report that there is
nothing to analyze or chunk it, analyze every chunk (one LLM call each),
merge, and run the final consolidation call, falling back to the formatted
summary when that call fails. -/
def gauthorMain (email : Str) (commitLog : Option Str)
    (parseJson : Str → Option Analysis) (oracle : Str → Except Unit Str)
    (finalOracle : Str → Except Unit Str) : ToolRun :=
  match commitLog with
  | none => ⟨["No commits found for author email: ".toList ++ email], 0, none⟩
  | some log =>
    if log.isEmpty then ⟨["No commits found for author email: ".toList ++ email], 0, none⟩
    else
      let chunks := chunk_commits log
      let merged := merge_analyses (batchAnalyses parseJson oracle chunks)
      let finalText :=
        match finalOracle (format_summary merged email) with
        | .ok t => t
        | .error _ => format_summary merged email
      ⟨[finalText], chunks.length + 1, none⟩

/-! ## Facts about fromKeys / dedupFirst -/

theorem mem_fromKeys : ∀ (l seen : List Str) (x : Str),
    x ∈ fromKeys l seen ↔ x ∈ l ∧ x ∉ seen := by
  intro l
  induction l with
  | nil => intro seen x; simp [fromKeys]
  | cons y l ih =>
    intro seen x
    rw [fromKeys]
    by_cases hy : y ∈ seen
    · rw [if_pos hy, ih]
      constructor
      · rintro ⟨hx, hns⟩
        exact ⟨List.mem_cons_of_mem _ hx, hns⟩
      · rintro ⟨hx, hns⟩
        rcases List.mem_cons.mp hx with rfl | hx'
        · exact absurd hy hns
        · exact ⟨hx', hns⟩
    · rw [if_neg hy]
      constructor
      · intro hx
        rcases List.mem_cons.mp hx with rfl | hx'
        · exact ⟨List.mem_cons_self .., hy⟩
        · obtain ⟨h1, h2⟩ := (ih _ x).mp hx'
          exact ⟨List.mem_cons_of_mem _ h1, fun h => h2 (List.mem_cons_of_mem _ h)⟩
      · rintro ⟨hx, hns⟩
        rcases List.mem_cons.mp hx with rfl | hx'
        · exact List.mem_cons_self ..
        · by_cases hxy : x = y
          · subst hxy
            exact List.mem_cons_self ..
          · exact List.mem_cons_of_mem _ ((ih _ x).mpr ⟨hx', by simp [hns, hxy]⟩)

theorem nodup_fromKeys : ∀ (l seen : List Str), (fromKeys l seen).Nodup := by
  intro l
  induction l with
  | nil => intro seen; simp [fromKeys]
  | cons y l ih =>
    intro seen
    rw [fromKeys]
    by_cases hy : y ∈ seen
    · rw [if_pos hy]
      exact ih seen
    · rw [if_neg hy]
      refine List.nodup_cons.mpr ⟨?_, ih _⟩
      intro hmem
      exact ((mem_fromKeys ..).mp hmem).2 (List.mem_cons_self ..)

theorem fromKeys_sublist : ∀ (l seen : List Str), (fromKeys l seen).Sublist l := by
  intro l
  induction l with
  | nil => intro seen; simp [fromKeys]
  | cons y l ih =>
    intro seen
    rw [fromKeys]
    by_cases hy : y ∈ seen
    · rw [if_pos hy]
      exact (ih seen).trans (List.sublist_cons_self ..)
    · rw [if_neg hy]
      exact List.Sublist.cons₂ y (ih _)

theorem fromKeys_eq_nil_of_subset : ∀ (ys seen : List Str), (∀ y ∈ ys, y ∈ seen) →
    fromKeys ys seen = [] := by
  intro ys
  induction ys with
  | nil => intro _ _; rfl
  | cons y ys ih =>
    intro seen h
    rw [fromKeys, if_pos (h y (List.mem_cons_self ..))]
    exact ih seen fun z hz => h z (List.mem_cons_of_mem _ hz)

theorem fromKeys_append_covered : ∀ (xs ys seen : List Str),
    (∀ y ∈ ys, y ∈ xs ∨ y ∈ seen) → fromKeys (xs ++ ys) seen = fromKeys xs seen := by
  intro xs
  induction xs with
  | nil =>
    intro ys seen h
    rw [List.nil_append]
    rw [show fromKeys ([] : List Str) seen = [] from rfl]
    apply fromKeys_eq_nil_of_subset
    intro y hy
    rcases h y hy with h1 | h2
    · simp at h1
    · exact h2
  | cons x xs ih =>
    intro ys seen h
    rw [List.cons_append, fromKeys, fromKeys]
    by_cases hx : x ∈ seen
    · rw [if_pos hx, if_pos hx]
      apply ih
      intro y hy
      rcases h y hy with h1 | h2
      · rcases List.mem_cons.mp h1 with rfl | h1'
        · exact Or.inr hx
        · exact Or.inl h1'
      · exact Or.inr h2
    · rw [if_neg hx, if_neg hx]
      congr 1
      apply ih
      intro y hy
      rcases h y hy with h1 | h2
      · rcases List.mem_cons.mp h1 with rfl | h1'
        · exact Or.inr (List.mem_cons_self ..)
        · exact Or.inl h1'
      · exact Or.inr (List.mem_cons_of_mem _ h2)

theorem dedupFirst_self_append (l : List Str) : dedupFirst (l ++ l) = dedupFirst l :=
  fromKeys_append_covered l l [] fun _ hy => Or.inl hy

/-- C4: merge_analyses on a pair of analyses concatenates each category's
lists in input order and keeps only the first occurrence of each duplicate,
preserving first-seen order of distinct entries; in particular merging a
features list containing x with one containing y then x yields x then y. -/
theorem merge_analyses_pair_dedup :
    (∀ a b : Analysis,
      (merge_analyses [a, b]).features
          = dedupFirst (getListD a.features ++ getListD b.features) ∧
      (merge_analyses [a, b]).technologies
          = dedupFirst (getListD a.technologies ++ getListD b.technologies) ∧
      (merge_analyses [a, b]).technical_skills
          = dedupFirst (getListD a.technical_skills ++ getListD b.technical_skills) ∧
      (merge_analyses [a, b]).notable_achievements
          = dedupFirst (getListD a.notable_achievements ++ getListD b.notable_achievements)) ∧
    (∀ l : List Str,
      (dedupFirst l).Nodup ∧ (dedupFirst l).Sublist l ∧ ∀ x, x ∈ dedupFirst l ↔ x ∈ l) ∧
    (merge_analyses [⟨none, some [['x']], none, none, none, none⟩,
        ⟨none, some [['y'], ['x']], none, none, none, none⟩]).features = [['x'], ['y']] := by
  refine ⟨?_, ?_, by decide⟩
  · intro a b
    refine ⟨?_, ?_, ?_, ?_⟩ <;> simp [merge_analyses]
  · intro l
    refine ⟨nodup_fromKeys l [], fromKeys_sublist l [], ?_⟩
    intro x
    rw [dedupFirst, mem_fromKeys]
    simp

/-- C5: merging a duplicated analysis gives the same list-valued categories
as merging it once. -/
theorem merge_analyses_idem (A : Analysis) :
    (merge_analyses [A, A]).features = (merge_analyses [A]).features ∧
    (merge_analyses [A, A]).technologies = (merge_analyses [A]).technologies ∧
    (merge_analyses [A, A]).technical_skills = (merge_analyses [A]).technical_skills ∧
    (merge_analyses [A, A]).notable_achievements = (merge_analyses [A]).notable_achievements := by
  refine ⟨?_, ?_, ?_, ?_⟩ <;>
    · simp only [merge_analyses, List.isEmpty_cons, List.map_cons, List.map_nil,
        List.flatten_cons, List.flatten_nil, List.append_nil]
      exact dedupFirst_self_append _

/-! ## Chunk-level facts for chunk_diff -/

theorem cdGroups_base_spec (maxChunkSize : Nat) (pieces : List Str) :
    (∀ g ∈ cdGroups maxChunkSize pieces [] 0,
        g ≠ [] ∧ (∀ u ∈ g, ¬ (strip u).isEmpty = true) ∧
        (sumLen g ≤ maxChunkSize ∨ g.length ≤ 1)) ∧
    (cdGroups maxChunkSize pieces [] 0).flatten =
      pieces.filter (fun fd => !(strip fd).isEmpty) := by
  have h := cdGroups_spec maxChunkSize pieces [] 0 rfl (Or.inl (by simp [sumLen])) (by simp)
  exact ⟨h.1, by simpa using h.2⟩

theorem flatten_map_flatten (L : List (List Str)) :
    (L.map List.flatten).flatten = L.flatten.flatten := by
  induction L with
  | nil => rfl
  | cons g L ih => simp [List.flatten_cons, ih]

theorem chunk_diff_chunks_ne_nil (d : Str) : ∀ c ∈ chunk_diff d, c ≠ [] := by
  intro c hc
  rw [chunk_diff] at hc
  by_cases hd : d.isEmpty
  · rw [if_pos hd] at hc
    simp at hc
  · rw [if_neg hd] at hc
    obtain ⟨g, hg, rfl⟩ := List.mem_map.mp hc
    obtain ⟨hgne, hblank, -⟩ := (cdGroups_base_spec 4000 (splitDiffGit d)).1 g hg
    obtain ⟨u, g', rfl⟩ := List.exists_cons_of_ne_nil hgne
    have hu : ¬ (strip u).isEmpty = true := hblank u (List.mem_cons_self ..)
    have hune : u ≠ [] := by
      rintro rfl
      exact hu (by decide)
    simp only [List.flatten_cons]
    intro habs
    exact hune (List.append_eq_nil.mp habs).1

theorem chunk_diff_group_sizes (d : Str) :
    ∀ g ∈ cdGroups 4000 (splitDiffGit d) [] 0,
      (4000 < g.flatten.length → g.length = 1 ∧ ∀ u ∈ g, 4000 < u.length) ∧
      (2 ≤ g.length → g.flatten.length ≤ 4000) := by
  intro g hg
  obtain ⟨hgne, -, hdisj⟩ := (cdGroups_base_spec 4000 (splitDiffGit d)).1 g hg
  rw [length_flatten_eq_sumLen]
  constructor
  · intro hbig
    rcases hdisj with hsz | hone
    · omega
    · have hlen1 : g.length = 1 := by
        have : 1 ≤ g.length := List.length_pos.mpr hgne
        omega
      refine ⟨hlen1, ?_⟩
      intro u hu
      obtain ⟨x, hx⟩ := List.length_eq_one.mp hlen1
      rw [hx] at hu
      obtain rfl : u = x := by simpa using hu
      rw [hx, sumLen_singleton] at hbig
      exact hbig
  · intro htwo
    rcases hdisj with hsz | hone
    · exact hsz
    · omega

theorem chunk_diff_lossless_retained (d : Str) :
    (chunk_diff d).flatten =
      ((splitDiffGit d).filter fun fd => !(strip fd).isEmpty).flatten := by
  rw [chunk_diff]
  by_cases hd : d.isEmpty
  · rw [if_pos hd]
    obtain rfl : d = [] := List.isEmpty_iff.mp hd
    have : splitDiffGit [] = [[]] := by decide
    rw [this]
    decide
  · rw [if_neg hd, flatten_map_flatten, (cdGroups_base_spec 4000 (splitDiffGit d)).2]

/-! ## The concrete chunk_commits counterexample input -/

/-- A single 16003-character unit: its estimated size is exactly half the
chunk budget, so two of them are packed into one chunk. -/
def bigUnit : Str := List.replicate 16003 'a'

theorem bigUnit_no_nl : '\n' ∉ bigUnit := by
  intro h
  have := List.eq_of_mem_replicate h
  simp at this

theorem bigUnit_not_infix : ¬ nlnl <:+: bigUnit := by
  rintro ⟨a, b, hab⟩
  apply bigUnit_no_nl
  rw [← hab]
  simp [nlnl]

theorem bigUnit_not_endsNL : ¬ endsNL bigUnit := by
  rintro ⟨q, hq⟩
  apply bigUnit_no_nl
  rw [hq]
  simp

theorem bigUnit_len : bigUnit.length = 16003 := by
  rw [bigUnit, List.length_replicate]

def bigInput : Str := joinSep nlnl [bigUnit, bigUnit]

theorem bigInput_eq : bigInput = bigUnit ++ '\n' :: '\n' :: bigUnit := by
  show joinSep nlnl [bigUnit, bigUnit] = _
  rw [joinSep, joinSep]
  simp [nlnl]

theorem bigInput_split : splitOnSep nlnl bigInput = [bigUnit, bigUnit] := by
  apply splitOnSep_joinSep_nlnl
  · simp
  · intro p hp
    rcases List.mem_cons.mp hp with rfl | hp'
    · exact bigUnit_not_infix
    · obtain rfl : p = bigUnit := by simpa using hp'
      exact bigUnit_not_infix
  · intro p hp
    obtain rfl : p = bigUnit := by simpa [List.dropLast] using hp
    exact bigUnit_not_endsNL

theorem bigInput_groups : ccGroups [bigUnit, bigUnit] [] 0 = [[bigUnit, bigUnit]] := by
  have h4 : bigUnit.length / 4 = 4000 := by rw [bigUnit_len]
  simp [ccGroups, h4, MAX_TOKENS_PER_CHUNK, MAX_COMMITS_PER_CHUNK]

theorem bigInput_ne_nil : ¬ bigInput.isEmpty := by
  rw [bigInput_eq]
  cases h : bigUnit <;> simp [List.isEmpty_iff]

theorem bigInput_chunks : chunk_commits bigInput = [bigInput] := by
  rw [chunk_commits, if_neg bigInput_ne_nil, bigInput_split, bigInput_groups]
  simp only [List.map_cons, List.map_nil]
  rw [show joinSep nlnl [bigUnit, bigUnit] = bigInput from rfl]

theorem bigInput_len : bigInput.length = 32008 := by
  rw [bigInput_eq]
  simp [bigUnit_len]

/-! ## optimize_diff as a per-section transformation -/

theorem optimizeDiffLoop_eq_filterMap : ∀ l, optimizeDiffLoop l = l.filterMap sectionTransform := by
  intro l
  induction l with
  | nil => rfl
  | cons fd rest ih =>
    rw [optimizeDiffLoop, List.filterMap_cons, sectionTransform]
    by_cases hb : (strip fd).isEmpty
    · simp only [if_pos hb]
      exact ih
    · simp only [if_neg hb]
      cases hf : renameFromPath fd with
      | none =>
        cases hbin : binarySearch fd with
        | none => simp [ih]
        | some xy => obtain ⟨x, y⟩ := xy; simp [ih]
      | some a =>
        cases ht : renameToPath fd with
        | none =>
          cases hbin : binarySearch fd with
          | none => simp [ih]
          | some xy => obtain ⟨x, y⟩ := xy; simp [ih]
        | some b => simp [ih]

theorem mem_flatten_infix {x : Str} {L : List Str} (hx : x ∈ L) : x <:+: L.flatten := by
  obtain ⟨s, t, hL⟩ := List.append_of_mem hx
  refine ⟨s.flatten, t.flatten, ?_⟩
  rw [hL]
  simp [List.flatten_append, List.flatten_cons]

theorem sectionTransform_blank {fd : Str} (hb : (strip fd).isEmpty) :
    sectionTransform fd = none := by
  rw [sectionTransform, if_pos hb]

theorem sectionTransform_rename {fd a b : Str} (hb : ¬ (strip fd).isEmpty = true)
    (hf : renameFromPath fd = some a) (ht : renameToPath fd = some b) :
    sectionTransform fd = some (renameMarker a b) := by
  rw [sectionTransform, if_neg hb, hf, ht]

theorem sectionTransform_binary {fd x y : Str} (hb : ¬ (strip fd).isEmpty = true)
    (hne : renameFromPath fd = none ∨ renameToPath fd = none)
    (hbin : binarySearch fd = some (x, y)) :
    sectionTransform fd = some (binaryMarker x y) := by
  rw [sectionTransform, if_neg hb]
  cases hf : renameFromPath fd with
  | none => rw [hbin]
  | some a =>
    cases ht : renameToPath fd with
    | none => rw [hbin]
    | some b =>
      rcases hne with h | h
      · rw [hf] at h; exact absurd h (by simp)
      · rw [ht] at h; exact absurd h (by simp)

theorem sectionTransform_plain {fd : Str} (hb : ¬ (strip fd).isEmpty = true)
    (hne : renameFromPath fd = none ∨ renameToPath fd = none)
    (hbin : binarySearch fd = none) :
    sectionTransform fd = some fd := by
  rw [sectionTransform, if_neg hb]
  cases hf : renameFromPath fd with
  | none => rw [hbin]
  | some a =>
    cases ht : renameToPath fd with
    | none => rw [hbin]
    | some b =>
      rcases hne with h | h
      · rw [hf] at h; exact absurd h (by simp)
      · rw [ht] at h; exact absurd h (by simp)

theorem optimize_diff_eq (d : Str) (hd : ¬ d.isEmpty) :
    optimize_diff d = ((splitDiffGit d).filterMap sectionTransform).flatten := by
  rw [optimize_diff, if_neg hd, optimizeDiffLoop_eq_filterMap]

theorem optimize_diff_keeps (d fd : Str) (hmem : fd ∈ splitDiffGit d) (hd : ¬ d.isEmpty)
    (hst : sectionTransform fd = some fd) : fd <:+: optimize_diff d := by
  rw [optimize_diff_eq d hd]
  apply mem_flatten_infix
  exact List.mem_filterMap.mpr ⟨fd, hmem, hst⟩

theorem optimize_diff_marker (d fd m : Str) (hmem : fd ∈ splitDiffGit d) (hd : ¬ d.isEmpty)
    (hst : sectionTransform fd = some m) : m <:+: optimize_diff d := by
  rw [optimize_diff_eq d hd]
  apply mem_flatten_infix
  exact List.mem_filterMap.mpr ⟨fd, hmem, hst⟩

/-! ## Facts about the scope-collapsing substitution -/

/-- Whether the parenthesized-scope pattern matches anywhere in `s`. -/
def containsScope : Str → Bool
  | [] => false
  | c :: rest => (matchScope (c :: rest)).isSome || containsScope rest

theorem scopeTail_some : ∀ {x r : Str}, scopeTail x = some r → x = ':' :: r := by
  intro x r h
  match x with
  | [] => exact absurd h (by simp [scopeTail])
  | d :: r' =>
    rw [scopeTail] at h
    by_cases hd : d = ':'
    · subst hd
      rw [if_pos rfl] at h
      obtain rfl : r' = r := by simpa using h
      rfl
    · rw [if_neg hd] at h
      exact absurd h (by simp)

theorem scopeBody_some : ∀ {s r : Str}, scopeBody s = some r →
    ∃ b, ')' ∉ b ∧ s = b ++ ')' :: ':' :: r := by
  intro s
  induction s with
  | nil => intro r h; simp [scopeBody] at h
  | cons c rest ih =>
    intro r h
    rw [scopeBody] at h
    by_cases hc : c = ')'
    · subst hc
      rw [if_pos rfl] at h
      rw [scopeTail_some h]
      exact ⟨[], by simp, rfl⟩
    · rw [if_neg hc] at h
      obtain ⟨b, hb, hrest⟩ := ih h
      refine ⟨c :: b, ?_, by rw [hrest]; rfl⟩
      simp only [List.mem_cons, not_or]
      exact ⟨fun h' => hc h'.symm, hb⟩

theorem scopeBody_of_decomp : ∀ (b r : Str), ')' ∉ b →
    scopeBody (b ++ ')' :: ':' :: r) = some r := by
  intro b
  induction b with
  | nil =>
    intro r _
    rw [List.nil_append, scopeBody, if_pos rfl, scopeTail, if_pos rfl]
  | cons c b ih =>
    intro r h
    simp only [List.mem_cons, not_or] at h
    rw [List.cons_append, scopeBody, if_neg fun hc => h.1 hc.symm]
    exact ih r h.2

theorem matchScope_some : ∀ {s r : Str}, matchScope s = some r →
    ∃ b, ')' ∉ b ∧ s = '(' :: (b ++ ')' :: ':' :: r) := by
  intro s r h
  match s with
  | [] => simp [matchScope] at h
  | c :: rest =>
    rw [matchScope] at h
    by_cases hc : c = '('
    · subst hc
      rw [if_pos rfl] at h
      obtain ⟨b, hb, hrest⟩ := scopeBody_some h
      exact ⟨b, hb, by rw [hrest]⟩
    · rw [if_neg hc] at h
      exact absurd h (by simp)

theorem matchScope_of_decomp (b r : Str) (hb : ')' ∉ b) :
    matchScope ('(' :: (b ++ ')' :: ':' :: r)) = some r := by
  rw [matchScope, if_pos rfl]
  exact scopeBody_of_decomp b r hb

theorem matchScope_length {s r : Str} (h : matchScope s = some r) : r.length < s.length := by
  obtain ⟨b, -, hdec⟩ := matchScope_some h
  rw [hdec]
  simp only [List.length_cons, List.length_append]
  omega

theorem collapseGo_congr : ∀ f f' s, s.length < f → s.length < f' →
    collapseGo f s = collapseGo f' s := by
  intro f
  induction f with
  | zero => intro f' s hf _; exact absurd hf (by omega)
  | succ f ih =>
    intro f' s hf hf'
    match f', s with
    | 0, s => exact absurd hf' (by omega)
    | f' + 1, [] => rfl
    | f' + 1, c :: rest =>
      simp only [collapseGo]
      cases hm : matchScope (c :: rest) with
      | some r =>
        have hlen := matchScope_length hm
        simp only [List.length_cons] at hf hf'
        exact congrArg (':' :: ·) (ih f' r (by simp at hlen; omega) (by simp at hlen; omega))
      | none =>
        simp only [List.length_cons] at hf hf'
        exact congrArg (c :: ·) (ih f' rest (by omega) (by omega))

theorem collapseScopes_nil : collapseScopes [] = [] := rfl

theorem collapseScopes_unfold (c : Char) (rest : Str) :
    collapseScopes (c :: rest) =
      match matchScope (c :: rest) with
      | some r => ':' :: collapseScopes r
      | none => c :: collapseScopes rest := by
  rw [collapseScopes]
  simp only [collapseGo]
  cases hm : matchScope (c :: rest) with
  | some r =>
    have hlen := matchScope_length hm
    simp only [List.length_cons] at hlen ⊢
    rw [collapseScopes]
    exact congrArg (':' :: ·) (collapseGo_congr _ _ r (by omega) (by omega))
  | none =>
    simp only [List.length_cons]
    rw [collapseScopes]

theorem collapse_mem_paren : ∀ (n : Nat) (t : Str), t.length ≤ n →
    ')' ∈ collapseScopes t → ')' ∈ t := by
  intro n
  induction n with
  | zero =>
    intro t ht h
    obtain rfl : t = [] := List.length_eq_zero.mp (Nat.le_zero.mp ht)
    rw [collapseScopes_nil] at h
    exact h
  | succ n ih =>
    intro t ht h
    match t with
    | [] =>
      rw [collapseScopes_nil] at h
      exact h
    | c :: rest =>
      rw [collapseScopes_unfold] at h
      cases hm : matchScope (c :: rest) with
      | some r =>
        obtain ⟨b, -, hdec⟩ := matchScope_some hm
        rw [hdec]
        simp
      | none =>
        rw [hm] at h
        rcases List.mem_cons.mp h with h1 | h1
        · exact h1 ▸ List.mem_cons_self ..
        · simp only [List.length_cons] at ht
          exact List.mem_cons_of_mem _ (ih rest (by omega) h1)

theorem mem_paren_decomp : ∀ {t : Str}, ')' ∈ t → ∃ u v, t = u ++ ')' :: v ∧ ')' ∉ u := by
  intro t
  induction t with
  | nil => intro h; simp at h
  | cons c rest ih =>
    intro h
    by_cases hc : c = ')'
    · subst hc
      exact ⟨[], rest, rfl, by simp⟩
    · have hr : ')' ∈ rest := by
        rcases List.mem_cons.mp h with h1 | h1
        · exact absurd h1.symm hc
        · exact h1
      obtain ⟨u, v, rfl, hu⟩ := ih hr
      refine ⟨c :: u, v, rfl, ?_⟩
      simp only [List.mem_cons, not_or]
      exact ⟨fun h' => hc h'.symm, hu⟩

theorem scopeBody_none_of : ∀ (u v : Str), ')' ∉ u → (∀ w, v ≠ ':' :: w) →
    scopeBody (u ++ ')' :: v) = none := by
  intro u
  induction u with
  | nil =>
    intro v _ hv
    rw [List.nil_append, scopeBody, if_pos rfl]
    match v with
    | [] => rfl
    | d :: w =>
      rw [scopeTail, if_neg fun hd => hv w (by rw [hd])]
  | cons c u' ih =>
    intro v hu hv
    simp only [List.mem_cons, not_or] at hu
    rw [List.cons_append, scopeBody, if_neg fun hc => hu.1 hc.symm]
    exact ih v hu.2 hv

theorem scopeBody_none_head {u v : Str} (hu : ')' ∉ u)
    (h : scopeBody (u ++ ')' :: v) = none) : ∀ w, v ≠ ':' :: w := by
  rintro w rfl
  rw [scopeBody_of_decomp u w hu] at h
  exact absurd h (by simp)

theorem first_paren_unique : ∀ (b u x y : Str), ')' ∉ b → ')' ∉ u →
    b ++ ')' :: x = u ++ ')' :: y → b = u ∧ x = y := by
  intro b
  induction b with
  | nil =>
    intro u x y _ hu h
    match u with
    | [] =>
      rw [List.nil_append, List.nil_append] at h
      refine ⟨rfl, ?_⟩
      injection h
    | c :: u' =>
      rw [List.nil_append, List.cons_append] at h
      have hc : (')' : Char) = c := by injection h
      exact absurd (by rw [← hc]; exact List.mem_cons_self .. : ')' ∈ c :: u') hu
  | cons a b' ih =>
    intro u x y hb hu h
    match u with
    | [] =>
      rw [List.nil_append, List.cons_append] at h
      have ha : a = ')' := by injection h
      simp only [List.mem_cons, not_or] at hb
      exact absurd ha.symm hb.1
    | c :: u' =>
      simp only [List.cons_append] at h
      have h1 : a = c := by injection h
      have h2 : b' ++ ')' :: x = u' ++ ')' :: y := by injection h
      subst h1
      simp only [List.mem_cons, not_or] at hb hu
      obtain ⟨rfl, rfl⟩ := ih u' x y hb.2 hu.2 h2
      exact ⟨rfl, rfl⟩

theorem collapse_passthrough : ∀ (u v : Str), ')' ∉ u → (∀ w, v ≠ ':' :: w) →
    collapseScopes (u ++ ')' :: v) = u ++ ')' :: collapseScopes v := by
  intro u
  induction u with
  | nil =>
    intro v _ hv
    rw [List.nil_append, collapseScopes_unfold]
    have hm : matchScope (')' :: v) = none := by
      rw [matchScope, if_neg (by decide)]
    rw [hm]
    rfl
  | cons a u' ih =>
    intro v hu hv
    simp only [List.mem_cons, not_or] at hu
    rw [List.cons_append, collapseScopes_unfold]
    have hma : matchScope (a :: (u' ++ ')' :: v)) = none := by
      by_cases ha : a = '('
      · subst ha
        rw [matchScope, if_pos rfl]
        exact scopeBody_none_of u' v hu.2 hv
      · rw [matchScope, if_neg ha]
    rw [hma, ih v hu.2 hv]
    rfl

theorem collapse_noScope : ∀ (n : Nat) (s : Str), s.length ≤ n →
    ¬ ([')', '('] <:+: s) → containsScope (collapseScopes s) = false := by
  intro n
  induction n with
  | zero =>
    intro s hs _
    obtain rfl : s = [] := List.length_eq_zero.mp (Nat.le_zero.mp hs)
    rfl
  | succ n ih =>
    intro s hs hadj
    match s, hs, hadj with
    | [], _, _ => rfl
    | c :: rest, hs, hadj =>
      rw [collapseScopes_unfold]
      cases hm : matchScope (c :: rest) with
      | some r =>
        show containsScope (':' :: collapseScopes r) = false
        obtain ⟨b, hb, hdec⟩ := matchScope_some hm
        rw [containsScope]
        have h1 : matchScope (':' :: collapseScopes r) = none := by
          rw [matchScope, if_neg (by decide)]
        rw [h1]
        simp only [Option.isSome_none, Bool.false_or]
        apply ih r
        · have := congrArg List.length hdec
          simp only [List.length_cons, List.length_append] at this hs
          omega
        · intro hr
          apply hadj
          refine hr.trans ?_
          exact ⟨'(' :: (b ++ [')', ':']), [], by rw [hdec]; simp⟩
      | none =>
        show containsScope (c :: collapseScopes rest) = false
        rw [containsScope]
        have hrest : containsScope (collapseScopes rest) = false := by
          apply ih rest
          · simp only [List.length_cons] at hs
            omega
          · exact not_infix_tail hadj
        have hms : matchScope (c :: collapseScopes rest) = none := by
          by_cases hc : c = '('
          · subst hc
            rw [matchScope, if_pos rfl]
            cases hsb : scopeBody (collapseScopes rest) with
            | none => rfl
            | some r2 =>
              exfalso
              obtain ⟨b2, hb2, hX⟩ := scopeBody_some hsb
              have hparen : ')' ∈ rest := by
                apply collapse_mem_paren rest.length rest le_rfl
                rw [hX]
                simp
              obtain ⟨u, v, rfl, hu⟩ := mem_paren_decomp hparen
              have hsbnone : scopeBody (u ++ ')' :: v) = none := by
                rw [matchScope, if_pos rfl] at hm
                exact hm
              have hv := scopeBody_none_head hu hsbnone
              have hpass := collapse_passthrough u v hu hv
              obtain ⟨-, hcv⟩ := first_paren_unique b2 u (':' :: r2) (collapseScopes v)
                hb2 hu (by rw [← hX, hpass])
              match v, hv, hcv with
              | [], _, hcv =>
                rw [collapseScopes_nil] at hcv
                exact absurd hcv (by simp)
              | d :: w, hv, hcv =>
                rw [collapseScopes_unfold] at hcv
                cases hmv : matchScope (d :: w) with
                | some rr =>
                  obtain ⟨bb, -, hdd⟩ := matchScope_some hmv
                  have hd : d = '(' := by injection hdd
                  apply hadj
                  subst hd
                  exact ⟨'(' :: u, w, by simp⟩
                | none =>
                  rw [hmv] at hcv
                  have hcv2 : ':' :: r2 = d :: collapseScopes w := hcv
                  have hd : (':' : Char) = d := by injection hcv2
                  exact hv w (by rw [← hd])
          · rw [matchScope, if_neg hc]
        rw [hms, hrest]
        rfl

/-! ## Whitespace normalization preserves the absence of scopes -/

theorem wsNormGo_scopeBody_none : ∀ (s : Str) (prev : Bool), scopeBody s = none →
    scopeBody (wsNormGo s prev) = none := by
  intro s
  induction s with
  | nil => intro prev _; cases prev <;> rfl
  | cons c rest ih =>
    intro prev h
    rw [wsNormGo]
    by_cases hsp : isSpace c
    · have hc : ¬ (c = ')') := by
        rintro rfl
        simp [isSpace] at hsp
      rw [scopeBody, if_neg hc] at h
      rw [if_pos hsp]
      cases prev
      · rw [if_neg (by simp)]
        rw [show ([' '] ++ wsNormGo rest true : Str) = ' ' :: wsNormGo rest true from rfl]
        rw [scopeBody, if_neg (by decide)]
        exact ih true h
      · rw [if_pos rfl, List.nil_append]
        exact ih true h
    · rw [if_neg hsp]
      by_cases hc : c = ')'
      · subst hc
        rw [scopeBody, if_pos rfl] at h
        rw [scopeBody, if_pos rfl]
        match rest, h with
        | [], _ => rfl
        | d :: r, h =>
          have hd : ¬ (d = ':') := by
            intro hd
            rw [scopeTail, if_pos hd] at h
            exact absurd h (by simp)
          rw [wsNormGo]
          by_cases hdsp : isSpace d
          · rw [if_pos hdsp, if_neg (by simp)]
            rw [show ([' '] ++ wsNormGo r true : Str) = ' ' :: wsNormGo r true from rfl]
            rw [scopeTail, if_neg (by decide)]
          · rw [if_neg hdsp, scopeTail, if_neg hd]
      · rw [scopeBody, if_neg hc] at h
        rw [scopeBody, if_neg hc]
        exact ih false h

theorem wsNormGo_noScope : ∀ (s : Str) (prev : Bool), containsScope s = false →
    containsScope (wsNormGo s prev) = false := by
  intro s
  induction s with
  | nil => intro prev _; cases prev <;> rfl
  | cons c rest ih =>
    intro prev h
    rw [containsScope] at h
    have h2 : containsScope rest = false := by
      rcases Bool.or_eq_false_iff.mp h with ⟨-, h2⟩
      exact h2
    have hm : matchScope (c :: rest) = none := by
      rcases Bool.or_eq_false_iff.mp h with ⟨h1, -⟩
      cases hmm : matchScope (c :: rest) with
      | none => rfl
      | some r => rw [hmm] at h1; exact absurd h1 (by simp)
    rw [wsNormGo]
    by_cases hsp : isSpace c
    · rw [if_pos hsp]
      cases prev
      · rw [if_neg (by simp)]
        rw [show ([' '] ++ wsNormGo rest true : Str) = ' ' :: wsNormGo rest true from rfl]
        rw [containsScope]
        rw [show matchScope (' ' :: wsNormGo rest true) = none from by
          rw [matchScope, if_neg (by decide)]]
        rw [ih true h2]
        rfl
      · rw [if_pos rfl, List.nil_append]
        exact ih true h2
    · rw [if_neg hsp]
      rw [containsScope]
      have hms : matchScope (c :: wsNormGo rest false) = none := by
        by_cases hc : c = '('
        · subst hc
          rw [matchScope, if_pos rfl] at hm
          rw [matchScope, if_pos rfl]
          exact wsNormGo_scopeBody_none rest false hm
        · rw [matchScope, if_neg hc]
      rw [hms, ih false h2]
      rfl

theorem containsScope_decomp : ∀ s : Str, containsScope s = true ↔
    ∃ a b r, ')' ∉ b ∧ s = a ++ '(' :: (b ++ ')' :: ':' :: r) := by
  intro s
  induction s with
  | nil =>
    constructor
    · intro h
      simp [containsScope] at h
    · rintro ⟨a, b, r, -, habs⟩
      have := congrArg List.length habs
      simp only [List.length_nil, List.length_append, List.length_cons] at this
      omega
  | cons c rest ih =>
    rw [containsScope]
    constructor
    · intro h
      cases hm : matchScope (c :: rest) with
      | some r =>
        obtain ⟨b, hb, hdec⟩ := matchScope_some hm
        exact ⟨[], b, r, hb, by rw [hdec]; rfl⟩
      | none =>
        rw [hm] at h
        simp only [Option.isSome_none, Bool.false_or] at h
        obtain ⟨a, b, r, hb, hre⟩ := ih.mp h
        exact ⟨c :: a, b, r, hb, by rw [hre]; rfl⟩
    · rintro ⟨a, b, r, hb, hdec⟩
      match a, hdec with
      | [], hdec =>
        rw [List.nil_append] at hdec
        rw [show matchScope (c :: rest) = some r from by
          rw [hdec]; exact matchScope_of_decomp b r hb]
        rfl
      | a1 :: a2, hdec =>
        rw [List.cons_append] at hdec
        have h2 : rest = a2 ++ '(' :: (b ++ ')' :: ':' :: r) := by injection hdec
        rw [ih.mpr ⟨a2, b, r, hb, h2⟩]
        simp

theorem containsScope_infix {l₁ l₂ : Str} (hinf : l₁ <:+: l₂)
    (h : containsScope l₂ = false) : containsScope l₁ = false := by
  by_contra hne
  have h1 : containsScope l₁ = true := by simpa using hne
  obtain ⟨a, b, r, hb, hdec⟩ := (containsScope_decomp l₁).mp h1
  obtain ⟨u, v, huv⟩ := hinf
  have h2 : containsScope l₂ = true := by
    apply (containsScope_decomp l₂).mpr
    exact ⟨u ++ a, b, r ++ v, hb, by rw [← huv, hdec]; simp⟩
  rw [h2] at h
  exact absurd h (by simp)

theorem strip_infix_self (s : Str) : strip s <:+: s := by
  have h1 : List.dropWhile isSpace s <:+ s := List.dropWhile_suffix isSpace
  have h3 : List.dropWhile isSpace (List.dropWhile isSpace s).reverse
      <:+ (List.dropWhile isSpace s).reverse := List.dropWhile_suffix isSpace
  have h4 := List.reverse_prefix.mpr h3
  rw [List.reverse_reverse] at h4
  obtain ⟨x, hx⟩ := h4
  obtain ⟨y, hy⟩ := h1
  refine ⟨y, x, ?_⟩
  have hstrip : strip s =
      (List.dropWhile isSpace (List.dropWhile isSpace s).reverse).reverse := rfl
  conv_rhs => rw [← hy, ← hx]
  rw [hstrip, List.append_assoc]

theorem mem_of_mem_strip {c : Char} {s : Str} (h : c ∈ strip s) : c ∈ s := by
  obtain ⟨u, v, huv⟩ := strip_infix_self s
  rw [← huv]
  simp [h]

/-! ## Single-space runs in the final message -/

/-- `s` has no two adjacent whitespace characters. -/
def noDoubleWs : Str → Bool
  | [] => true
  | [_] => true
  | a :: b :: r => (!(isSpace a && isSpace b)) && noDoubleWs (b :: r)

theorem ndw_iff : ∀ l : Str, noDoubleWs l = true ↔
    ∀ a b : Char, [a, b] <:+: l → ¬(isSpace a = true ∧ isSpace b = true) := by
  intro l
  induction l with
  | nil =>
    constructor
    · intro _ a b hinf
      have := hinf.length_le
      simp at this
    · intro _
      rfl
  | cons c rest ih =>
    match rest, ih with
    | [], _ =>
      constructor
      · intro _ a b hinf
        have := hinf.length_le
        simp at this
      · intro _
        rfl
    | d :: r, ih =>
      rw [noDoubleWs]
      constructor
      · intro h a b hinf
        obtain ⟨h1, h2⟩ := Bool.and_eq_true_iff.mp h
        obtain ⟨u, v, huv⟩ := hinf
        match u, huv with
        | [], huv =>
          rw [List.nil_append] at huv
          have ha : a = c := by injection huv
          have hrest : b :: v = d :: r := by injection huv
          have hb : b = d := by injection hrest
          rintro ⟨hsa, hsb⟩
          rw [ha] at hsa
          rw [hb] at hsb
          rw [hsa, hsb] at h1
          exact absurd h1 (by simp)
        | e :: u2, huv =>
          simp only [List.cons_append] at huv
          have h3 : u2 ++ [a, b] ++ v = d :: r := by injection huv
          exact ih.mp h2 a b ⟨u2, v, h3⟩
      · intro h
        apply Bool.and_eq_true_iff.mpr
        constructor
        · have := h c d ⟨[], r, by simp⟩
          cases hsc : isSpace c <;> cases hsd : isSpace d <;> simp_all
        · apply ih.mpr
          intro a b hinf
          obtain ⟨u, v, huv⟩ := hinf
          exact h a b ⟨c :: u, v, by rw [← huv]; simp⟩

theorem ndw_infix {l₁ l₂ : Str} (hinf : l₁ <:+: l₂) (h : noDoubleWs l₂ = true) :
    noDoubleWs l₁ = true := by
  apply (ndw_iff l₁).mpr
  intro a b hab
  exact (ndw_iff l₂).mp h a b (hab.trans hinf)

theorem wsNormGo_true_head : ∀ (rest : Str) (d : Char) (w : Str),
    wsNormGo rest true = d :: w → isSpace d = false := by
  intro rest
  induction rest with
  | nil => intro d w h; exact absurd h (by simp [wsNormGo])
  | cons c r ih =>
    intro d w h
    rw [wsNormGo] at h
    by_cases hsp : isSpace c
    · rw [if_pos hsp, if_pos rfl, List.nil_append] at h
      exact ih d w h
    · rw [if_neg hsp] at h
      have hd : c = d := by injection h
      rw [← hd]
      simpa using hsp

theorem wsNormGo_ndw : ∀ (s : Str) (prev : Bool), noDoubleWs (wsNormGo s prev) = true := by
  intro s
  induction s with
  | nil => intro prev; rfl
  | cons c rest ih =>
    intro prev
    rw [wsNormGo]
    by_cases hsp : isSpace c
    · rw [if_pos hsp]
      cases prev
      · rw [if_neg (by simp)]
        rw [show ([' '] ++ wsNormGo rest true : Str) = ' ' :: wsNormGo rest true from rfl]
        cases hW : wsNormGo rest true with
        | nil => rfl
        | cons d w =>
          rw [noDoubleWs]
          apply Bool.and_eq_true_iff.mpr
          refine ⟨?_, by rw [← hW]; exact ih true⟩
          rw [wsNormGo_true_head rest d w hW]
          simp
      · rw [if_pos rfl, List.nil_append]
        exact ih true
    · rw [if_neg hsp]
      cases hW : wsNormGo rest false with
      | nil => rfl
      | cons d w =>
        rw [noDoubleWs]
        apply Bool.and_eq_true_iff.mpr
        refine ⟨?_, by rw [← hW]; exact ih false⟩
        have : isSpace c = false := by simpa using hsp
        rw [this]
        simp

theorem postprocess_infix_chain (resp : Str) :
    postprocessMessage resp <:+: wsNormalize (collapseScopes (strip resp)) := by
  simp only [postprocessMessage]
  by_cases hdot : '.' ∈ strip (wsNormalize (collapseScopes (strip resp)))
  · rw [if_pos hdot]
    exact ((strip_infix_self _).trans ((List.takeWhile_prefix _).isInfix.trans (strip_infix_self _)))
  · rw [if_neg hdot]
    exact strip_infix_self _

theorem postprocess_no_period (resp : Str) : '.' ∉ postprocessMessage resp := by
  simp only [postprocessMessage]
  by_cases hdot : '.' ∈ strip (wsNormalize (collapseScopes (strip resp)))
  · rw [if_pos hdot]
    intro hmem
    have h1 := mem_of_mem_strip hmem
    have h2 := List.mem_takeWhile_imp h1
    simp at h2
  · rw [if_neg hdot]
    exact hdot

theorem postprocess_ndw (resp : Str) : noDoubleWs (postprocessMessage resp) = true :=
  ndw_infix (postprocess_infix_chain resp) (wsNormGo_ndw _ false)

theorem postprocess_noScope (resp : Str) (h : ¬ [')', '('] <:+: strip resp) :
    containsScope (postprocessMessage resp) = false := by
  have h1 : containsScope (collapseScopes (strip resp)) = false :=
    collapse_noScope (strip resp).length (strip resp) le_rfl h
  have h2 : containsScope (wsNormalize (collapseScopes (strip resp))) = false :=
    wsNormGo_noScope _ false h1
  exact containsScope_infix (postprocess_infix_chain resp) h2

/-! ## The claims -/

/-- Claim C1: for every commit-log string, every chunk emitted by
chunk_commits contains at most MAX_COMMITS_PER_CHUNK (50) units, where a
unit is one element of the chunk split on the blank-line separator. -/
theorem claim_C1_unit_bound (log : Str) :
    ∀ c ∈ chunk_commits log, (splitOnSep nlnl c).length ≤ MAX_COMMITS_PER_CHUNK :=
  chunk_commits_unit_count log

theorem claim_C1_witness :
    ("a\n\nb".toList ∈ chunk_commits "a\n\nb".toList) ∧
    (splitOnSep nlnl "a\n\nb".toList).length ≤ MAX_COMMITS_PER_CHUNK :=
  ⟨by decide, claim_C1_unit_bound "a\n\nb".toList "a\n\nb".toList (by decide)⟩

/-- Claim C2 as stated is false: chunk_commits can emit a chunk of two
units whose character count divided by four exceeds the budget, because the
loop bounds the sum of the units' estimated sizes, not the estimated size
of the joined chunk (each unit's length is rounded down and the joining
separators are not counted). -/
theorem claim_C2_counterexample :
    bigInput ∈ chunk_commits bigInput ∧
    2 ≤ (splitOnSep nlnl bigInput).length ∧
    MAX_TOKENS_PER_CHUNK < bigInput.length / 4 := by
  refine ⟨?_, ?_, ?_⟩
  · rw [bigInput_chunks]
    exact List.mem_cons_self ..
  · rw [bigInput_split]
    simp
  · rw [bigInput_len]
    norm_num [MAX_TOKENS_PER_CHUNK]

/-- Claim C2 amended: for chunk_commits the size measure the loop enforces
is the sum over the chunk's units of length // 4: a chunk exceeding the
budget in that measure is a single unit that alone exceeds it, and every
multi-unit chunk stays within it.  For chunk_diff the property holds as
stated with the raw character count of the chunk (the sum of its units'
lengths). -/
theorem claim_C2_amended :
    (∀ log : Str, ∀ c ∈ chunk_commits log,
      (MAX_TOKENS_PER_CHUNK < sumSizes (splitOnSep nlnl c) →
        (splitOnSep nlnl c).length = 1 ∧
        ∀ u ∈ splitOnSep nlnl c, MAX_TOKENS_PER_CHUNK < u.length / 4) ∧
      (2 ≤ (splitOnSep nlnl c).length →
        sumSizes (splitOnSep nlnl c) ≤ MAX_TOKENS_PER_CHUNK)) ∧
    (∀ d : Str, ¬ d.isEmpty →
      chunk_diff d = (cdGroups 4000 (splitDiffGit d) [] 0).map List.flatten) ∧
    (∀ d : Str, ∀ g ∈ cdGroups 4000 (splitDiffGit d) [] 0,
      (4000 < g.flatten.length → g.length = 1 ∧ ∀ u ∈ g, 4000 < u.length) ∧
      (2 ≤ g.length → g.flatten.length ≤ 4000)) := by
  refine ⟨chunk_commits_size_spec, ?_, chunk_diff_group_sizes⟩
  intro d hd
  rw [chunk_diff, if_neg hd]

theorem claim_C2_amended_witness :
    ("a\n\nb".toList ∈ chunk_commits "a\n\nb".toList) ∧
    2 ≤ (splitOnSep nlnl "a\n\nb".toList).length ∧
    sumSizes (splitOnSep nlnl "a\n\nb".toList) ≤ MAX_TOKENS_PER_CHUNK :=
  ⟨by decide, by decide,
    (claim_C2_amended.1 "a\n\nb".toList "a\n\nb".toList (by decide)).2 (by decide)⟩

/-- Claim C3 as stated is false: chunk_diff splits on a regex whose matches
are dropped, so concatenating its chunks does not reproduce the input
text. -/
theorem claim_C3_counterexample :
    (chunk_diff "diff --gitX".toList).flatten ≠ "diff --gitX".toList := by decide

/-- Claim C3 amended: chunk_commits is lossless and order-preserving for
nonempty logs all of whose units fit the size budget (splitting each chunk
on the blank-line separator and concatenating across chunks yields the
input's unit list); chunk_diff reproduces exactly the concatenation of the
retained units - the non-blank sections of the regex split - the separator
matches and whitespace-only sections being dropped. -/
theorem claim_C3_amended :
    (∀ log : Str, ¬ log.isEmpty →
      (∀ u ∈ splitOnSep nlnl log, u.length / 4 ≤ MAX_TOKENS_PER_CHUNK) →
      ((chunk_commits log).map (splitOnSep nlnl)).flatten = splitOnSep nlnl log) ∧
    (∀ d : Str, (chunk_diff d).flatten =
      ((splitDiffGit d).filter fun fd => !(strip fd).isEmpty).flatten) :=
  ⟨chunk_commits_lossless, chunk_diff_lossless_retained⟩

theorem claim_C3_amended_witness :
    (¬ ("a\n\nb".toList : Str).isEmpty) ∧
    ((chunk_commits "a\n\nb".toList).map (splitOnSep nlnl)).flatten
      = splitOnSep nlnl "a\n\nb".toList :=
  ⟨by decide, claim_C3_amended.1 "a\n\nb".toList (by decide) (by decide)⟩

/-- Claim C4: merge_analyses on a pair of analyses concatenates each
category's lists in input order and keeps only the first occurrence of each
exact-duplicate string (the merged list has no duplicates, is a sublist of
the concatenation, and has the same members), preserving first-seen order
of distinct entries; in particular merging a features list containing x
with one containing y then x yields x then y. -/
theorem claim_C4_merge_dedup :
    (∀ a b : Analysis,
      (merge_analyses [a, b]).features
          = dedupFirst (getListD a.features ++ getListD b.features) ∧
      (merge_analyses [a, b]).technologies
          = dedupFirst (getListD a.technologies ++ getListD b.technologies) ∧
      (merge_analyses [a, b]).technical_skills
          = dedupFirst (getListD a.technical_skills ++ getListD b.technical_skills) ∧
      (merge_analyses [a, b]).notable_achievements
          = dedupFirst (getListD a.notable_achievements ++ getListD b.notable_achievements)) ∧
    (∀ l : List Str,
      (dedupFirst l).Nodup ∧ (dedupFirst l).Sublist l ∧ ∀ x, x ∈ dedupFirst l ↔ x ∈ l) ∧
    (merge_analyses [⟨none, some [['x']], none, none, none, none⟩,
        ⟨none, some [['y'], ['x']], none, none, none, none⟩]).features = [['x'], ['y']] :=
  merge_analyses_pair_dedup

/-- Claim C5: merging a duplicated analysis produces the same list-valued
categories (features, technologies, technical_skills, notable_achievements)
as merging it once. -/
theorem claim_C5_merge_idem (A : Analysis) :
    (merge_analyses [A, A]).features = (merge_analyses [A]).features ∧
    (merge_analyses [A, A]).technologies = (merge_analyses [A]).technologies ∧
    (merge_analyses [A, A]).technical_skills = (merge_analyses [A]).technical_skills ∧
    (merge_analyses [A, A]).notable_achievements = (merge_analyses [A]).notable_achievements :=
  merge_analyses_idem A

def renBodyDiff : Str := "diff --git x\nrename from a\nrename to b\n+real change\n".toList

def renBodySection : Str := " x\nrename from a\nrename to b\n+real change\n".toList

/-- Claim C6 as stated is false: a per-file section that contains rename
lines together with a textual hunk line is not a rename-only section, yet
optimize_diff still collapses it to the rename marker and drops its body,
so the section is not left unchanged in the output. -/
theorem claim_C6_counterexample :
    renBodySection ∈ splitDiffGit renBodyDiff ∧
    ¬ (strip renBodySection).isEmpty = true ∧
    binarySearch renBodySection = none ∧
    ("+real change".toList <:+: renBodySection) ∧
    optimize_diff renBodyDiff = "# file renamed from a to b\n".toList ∧
    ¬ renBodySection <:+: optimize_diff renBodyDiff := by decide

/-- Claim C6 amended: optimize_diff applies a per-section transformation to
the regex-split sections of the diff: a section containing both a
rename-from line and a rename-to line (whether rename-only or not) becomes
the single rename marker built from the two captured paths; a remaining
section containing a binary-files line becomes the single binary marker;
whitespace-only sections are dropped; every other section is kept verbatim
in the output. -/
theorem claim_C6_amended :
    (∀ d : Str, ¬ d.isEmpty →
      optimize_diff d = ((splitDiffGit d).filterMap sectionTransform).flatten) ∧
    (∀ fd : Str,
      ((strip fd).isEmpty = true → sectionTransform fd = none) ∧
      (∀ a b, ¬ (strip fd).isEmpty = true → renameFromPath fd = some a →
        renameToPath fd = some b → sectionTransform fd = some (renameMarker a b)) ∧
      (∀ x y, ¬ (strip fd).isEmpty = true →
        (renameFromPath fd = none ∨ renameToPath fd = none) →
        binarySearch fd = some (x, y) → sectionTransform fd = some (binaryMarker x y)) ∧
      (¬ (strip fd).isEmpty = true → (renameFromPath fd = none ∨ renameToPath fd = none) →
        binarySearch fd = none → sectionTransform fd = some fd)) ∧
    (∀ d fd, fd ∈ splitDiffGit d → ¬ d.isEmpty → sectionTransform fd = some fd →
      fd <:+: optimize_diff d) ∧
    (∀ d fd m, fd ∈ splitDiffGit d → ¬ d.isEmpty → sectionTransform fd = some m →
      m <:+: optimize_diff d) := by
  refine ⟨optimize_diff_eq, ?_, optimize_diff_keeps, optimize_diff_marker⟩
  intro fd
  exact ⟨sectionTransform_blank,
    fun a b hb hf ht => sectionTransform_rename hb hf ht,
    fun x y hb hne hbin => sectionTransform_binary hb hne hbin,
    fun hb hne hbin => sectionTransform_plain hb hne hbin⟩

theorem claim_C6_amended_witness :
    ("+x".toList ∈ splitDiffGit "+x".toList) ∧
    ¬ ("+x".toList : Str).isEmpty ∧
    sectionTransform "+x".toList = some "+x".toList ∧
    "+x".toList <:+: optimize_diff "+x".toList :=
  ⟨by decide, by decide, by decide,
    claim_C6_amended.2.2.1 "+x".toList "+x".toList (by decide) (by decide) (by decide)⟩

/-- Claim C7: a failed LLM call or an unparseable response for one chunk is
caught: analyze_commit_chunk returns the fixed fallback mapping, while in
process_diff the chunk's summary is omitted; every chunk is processed
independently of the others' failures, and the batch result is a total
function of the oracles, so no failure propagates out of the batch. -/
theorem claim_C7_error_isolation :
    (∀ (parseJson : Str → Option Analysis) (e : Unit),
      analyze_commit_chunk parseJson (.error e) = fallbackAnalysis) ∧
    (∀ (parseJson : Str → Option Analysis) (r : Str),
      parseJson (extractJson r) = none →
      analyze_commit_chunk parseJson (.ok r) = fallbackAnalysis) ∧
    (∀ (parseJson : Str → Option Analysis) (oracle : Str → Except Unit Str)
        (chunks : List Str),
      (batchAnalyses parseJson oracle chunks).length = chunks.length ∧
      ∀ i (h : i < chunks.length),
        (batchAnalyses parseJson oracle chunks)[i]? =
          some (analyze_commit_chunk parseJson (oracle chunks[i]))) ∧
    (∀ (sumOracle : Str → Option Str) (d : Str), ¬ d.isEmpty →
      4000 < (optimize_diff d).length →
      process_diff sumOracle d = some (joinSep nlnl
        ((chunk_diff (optimize_diff d)).filterMap fun c => truthyOpt (sumOracle c)))) ∧
    (∀ d : Str, ¬ d.isEmpty → 4000 < (optimize_diff d).length →
      process_diff (fun _ => none) d = some []) := by
  refine ⟨fun _ _ => rfl, ?_, ?_, ?_, ?_⟩
  · intro parseJson r h
    rw [analyze_commit_chunk, h]
  · intro parseJson oracle chunks
    refine ⟨by simp [batchAnalyses], ?_⟩
    intro i h
    rw [batchAnalyses, List.getElem?_map, List.getElem?_eq_getElem h]
    rfl
  · intro sumOracle d hd hbig
    rw [process_diff, if_neg hd, if_pos hbig]
  · intro d hd hbig
    rw [process_diff, if_neg hd, if_pos hbig]
    have : ((chunk_diff (optimize_diff d)).filterMap
        fun c => truthyOpt ((fun _ => (none : Option Str)) c)) = [] := by
      simp [truthyOpt]
    rw [this]
    rfl

theorem claim_C7_witness :
    ((fun _ : Str => (none : Option Analysis)) (extractJson "x".toList) = none) ∧
    analyze_commit_chunk (fun _ => none) (.ok "x".toList) = fallbackAnalysis :=
  ⟨rfl, claim_C7_error_isolation.2.1 (fun _ => none) "x".toList rfl⟩

/-- Claim C8: given an empty staged diff (gcommit) or an absent or empty
author log (gauthor), the tool prints its nothing-to-do message and returns
without making any LLM call. -/
theorem claim_C8_nothing_to_do :
    (∀ (gitOut : Str) (sumOracle genOracle : Str → Option Str) (edit : Bool)
        (editOracle : Str → Str),
      strip gitOut = [] →
      gcommitMain gitOut sumOracle genOracle edit editOracle =
        ⟨["No staged changes. Use \x27git add\x27 before running gcommit.".toList],
          0, none⟩) ∧
    (∀ (email : Str) (parseJson : Str → Option Analysis)
        (oracle finalOracle : Str → Except Unit Str) (commitLog : Option Str),
      (commitLog = none ∨ commitLog = some []) →
      gauthorMain email commitLog parseJson oracle finalOracle =
        ⟨["No commits found for author email: ".toList ++ email], 0, none⟩) := by
  constructor
  · intro gitOut sumOracle genOracle edit editOracle hstrip
    simp only [gcommitMain, hstrip]
    rfl
  · intro email parseJson oracle finalOracle commitLog hlog
    rcases hlog with rfl | rfl <;> rfl

theorem claim_C8_witness :
    (strip "".toList = []) ∧
    gcommitMain "".toList (fun _ => none) (fun _ => none) false id =
      ⟨["No staged changes. Use \x27git add\x27 before running gcommit.".toList],
        0, none⟩ ∧
    gauthorMain "a@b".toList none (fun _ => none) (fun _ => .error ())
        (fun _ => .error ()) =
      ⟨["No commits found for author email: ".toList ++ "a@b".toList], 0, none⟩ :=
  ⟨by decide, claim_C8_nothing_to_do.1 "".toList _ _ false id (by decide),
    claim_C8_nothing_to_do.2 "a@b".toList _ _ _ none (Or.inl rfl)⟩

/-- Claim C9: every chunk returned by chunk_diff is a non-empty string:
blank sections are skipped and a chunk is only closed when it already holds
at least one section. -/
theorem claim_C9_chunks_nonempty (d : Str) : ∀ c ∈ chunk_diff d, c ≠ [] :=
  chunk_diff_chunks_ne_nil d

theorem claim_C9_witness :
    (['X'] ∈ chunk_diff "diff --gitX".toList) ∧ (['X'] : Str) ≠ [] :=
  ⟨by decide, claim_C9_chunks_nonempty "diff --gitX".toList ['X'] (by decide)⟩

/-- Claim C10 as stated is false: the scope-collapsing substitution scans
left to right without revisiting replaced text, so when the response holds
two adjacent parenthesized groups before a colon, the collapse of the
second leaves the first reading as a parenthesized scope before a colon in
the returned message. -/
theorem claim_C10_counterexample :
    generate_commit_message (fun _ => some "a(x)(y): b".toList) "d".toList
      = some "a(x): b".toList ∧
    containsScope "a(x): b".toList = true := by decide

/-- Claim C10 amended: every message returned by a successful
generate_commit_message call contains no period and no run of two or more
whitespace characters, and it contains no parenthesized scope directly
followed by a colon provided the stripped response has no closing
parenthesis directly followed by an opening one (without that proviso a
collapse can juxtapose an earlier group with the inserted colon). -/
theorem claim_C10_amended (genOracle : Str → Option Str) (diff m : Str)
    (h : generate_commit_message genOracle diff = some m) :
    ('.' ∉ m) ∧ noDoubleWs m = true ∧
    (∀ resp, genOracle diff = some resp → ¬ ([')', '('] <:+: strip resp) →
      containsScope m = false) := by
  rw [generate_commit_message] at h
  by_cases hd : diff.isEmpty
  · rw [if_pos hd] at h
    exact absurd h (by simp)
  · rw [if_neg hd] at h
    cases hg : genOracle diff with
    | none =>
      rw [hg] at h
      exact absurd h (by simp)
    | some content =>
      rw [hg] at h
      have hm : m = postprocessMessage content := by
        have h2 : some (postprocessMessage content) = some m := h
        injection h2 with h3
        exact h3.symm
      subst hm
      refine ⟨postprocess_no_period content, postprocess_ndw content, ?_⟩
      intro resp hresp hadj
      have hrc : content = resp := by injection hresp
      subst hrc
      exact postprocess_noScope content hadj

theorem claim_C10_amended_witness :
    (generate_commit_message (fun _ => some "feat: x".toList) "d".toList
      = some "feat: x".toList) ∧
    ('.' ∉ "feat: x".toList) ∧ noDoubleWs "feat: x".toList = true ∧
    containsScope "feat: x".toList = false := by
  have h := claim_C10_amended (fun _ => some "feat: x".toList) "d".toList
    "feat: x".toList (by decide)
  exact ⟨by decide, h.1, h.2.1, h.2.2 "feat: x".toList rfl (by decide)⟩
